import Mathlib

/-!
# Verification of the `TableFormatter` tree-to-table builder of `awscli/formatter.py`

This file is a shallow embedding of the table-building core of
`src/awscli/formatter.py` (class `TableFormatter`, plus the response filtering
in `Formatter._remove_request_id` and the construction-time color-option check
in `TableFormatter.__init__`), together with theorems checking the
natural-language specification against it.

Modelling conventions:

* A Python value (the parsed response tree) is modelled by `Value`:
  scalars (`null`, `str`, `int`, `bool`), lists (`seq`) and dicts (`map`).
  A dict is modelled as an association list in insertion order; Python dicts
  have unique keys, which theorems assume where it matters.
* The `MultiTable` sink (external collaborator, `awscli.table`) is modelled by
  the directive stream it receives: `new_section`, `add_row_header`, `add_row`
  calls become `Directive` values appended in call order.  Cells are passed to
  the table raw (stringification happens in the renderer), so `addRow` carries
  `Value` cells, with a plain key or the `''` default embedded as `Value.str`.
* Python control flow that raises an exception (`_group_scalar_keys` applied
  to a non-dict element of a list whose first element is a dict,
  `element.get` on a non-dict element, or a `KeyError` on dict indexing) is
  modelled by `Option`: `none` means the Python code raises, so no directive
  stream is rendered.
* `list.sort()` / `sorted()` on strings is modelled by `List.insertionSort`
  with `strLe`, code-point lexicographic order (Python's string order); any
  correct sort is a faithful model of Python's.
-/

set_option linter.unusedVariables false
set_option linter.unreachableTactic false
set_option linter.unusedTactic false
set_option linter.unnecessarySimpa false

/-- The recursive input type: the parsed result of an API call.
Scalars are text, numbers, booleans and `None`; containers are lists and
dicts (association lists in insertion order). -/
inductive Value where
  | null : Value
  | str : String → Value
  | int : Int → Value
  | bool : Bool → Value
  | seq : List Value → Value
  | map : List (String × Value) → Value

mutual

/-- Structural (Python `==`-style on identical insertion order) equality test
for `Value`; used only to obtain a kernel-computable `DecidableEq`. -/
def beqValue : Value → Value → Bool
  | .null, .null => true
  | .str a, .str b => a == b
  | .int a, .int b => a == b
  | .bool a, .bool b => a == b
  | .seq xs, .seq ys => beqValueList xs ys
  | .map xs, .map ys => beqKvList xs ys
  | _, _ => false

/-- Pointwise `beqValue` on lists of values. -/
def beqValueList : List Value → List Value → Bool
  | [], [] => true
  | x :: xs, y :: ys => beqValue x y && beqValueList xs ys
  | _, _ => false

/-- Pointwise `beqValue` on association lists. -/
def beqKvList : List (String × Value) → List (String × Value) → Bool
  | [], [] => true
  | (k, v) :: xs, (k', v') :: ys => k == k' && beqValue v v' && beqKvList xs ys
  | _, _ => false

end

mutual

theorem beqValue_iff : ∀ a b, beqValue a b = true ↔ a = b
  | .null, b => by cases b <;> simp [beqValue]
  | .str s, b => by cases b <;> simp [beqValue]
  | .int n, b => by cases b <;> simp [beqValue]
  | .bool x, b => by cases b <;> simp [beqValue]
  | .seq xs, b => by
      cases b <;> simp [beqValue]
      exact beqValueList_iff xs _
  | .map kvs, b => by
      cases b <;> simp [beqValue]
      exact beqKvList_iff kvs _

theorem beqValueList_iff : ∀ xs ys, beqValueList xs ys = true ↔ xs = ys
  | [], ys => by cases ys <;> simp [beqValueList]
  | x :: xs, ys => by
      cases ys with
      | nil => simp [beqValueList]
      | cons y ys =>
          simp [beqValueList, beqValue_iff x y, beqValueList_iff xs ys]

theorem beqKvList_iff : ∀ xs ys, beqKvList xs ys = true ↔ xs = ys
  | [], ys => by cases ys <;> simp [beqKvList]
  | (k, v) :: xs, ys => by
      cases ys with
      | nil => simp [beqKvList]
      | cons p ys =>
          obtain ⟨k', v'⟩ := p
          simp [beqKvList, beqValue_iff v v', beqKvList_iff xs ys, Prod.ext_iff]

end

instance : DecidableEq Value := fun a b => decidable_of_iff _ (beqValue_iff a b)

/-- One directive sent to the `MultiTable` sink: a `new_section`,
`add_row_header` or `add_row` call (`src/awscli/formatter.py`, calls on
`self.table`). -/
inductive Directive where
  | newSection (title : String) (indent_level : Nat)
  | addHeaderRow (labels : List String)
  | addRow (cells : List Value)
deriving DecidableEq

/-- Python truthiness test `not current` (`formatter.py` line 111):
`None`, `""`, `0`, `False`, `[]` and `{}` are falsy. -/
def falsy : Value → Bool
  | Value.null => true
  | Value.str s => s == ""
  | Value.int n => n == 0
  | Value.bool b => !b
  | Value.seq items => items.isEmpty
  | Value.map kvs => kvs.isEmpty

/-- `TableFormatter._scalar_type` (line 163):
`not isinstance(element, (list, dict))`. -/
def scalar_type : Value → Bool
  | Value.seq _ => false
  | Value.map _ => false
  | _ => true

/-- `isinstance(x, dict)`. -/
def isMap : Value → Bool
  | Value.map _ => true
  | _ => false

/-- Python dict lookup on the association list: the value stored at key `k`
(first matching pair; a Python dict has at most one). -/
def dlookup (kvs : List (String × Value)) (k : String) : Option Value :=
  match kvs with
  | [] => none
  | (k', v) :: rest => if k' == k then some v else dlookup rest k

/-- Python `current[k]` at the call sites in `_build_sub_table_from_dict`
(lines 134 and 137).  There `k` is always one of `current`'s own keys, so the
`KeyError` branch is unreachable; it gets the harmless default `Value.null`. -/
def dGet (kvs : List (String × Value)) (k : String) : Value :=
  (dlookup kvs k).getD Value.null

/-- Python `element.get(header, '')` (line 154): the element's value at the
key, or the empty string when the element lacks the key. -/
def elemGet (kvs : List (String × Value)) (k : String) : Value :=
  match dlookup kvs k with
  | some v => v
  | none => Value.str ""

/-- Code-point lexicographic comparison of char lists: Python's string
order. -/
def charListLe : List Char → List Char → Bool
  | [], _ => true
  | _ :: _, [] => false
  | a :: as, b :: bs => if a = b then charListLe as bs else decide (a < b)

/-- Python's `<=` on strings: code-point lexicographic. -/
def strLe (a b : String) : Bool := charListLe a.data b.data

/-- `strLe` as a decidable relation, for use with `List.insertionSort`. -/
def strLeP (a b : String) : Prop := strLe a b = true

instance : DecidableRel strLeP :=
  fun a b => inferInstanceAs (Decidable (strLe a b = true))

/-- `list.sort()` / `sorted()` on a list of strings. -/
def sortStrings (l : List String) : List String := List.insertionSort strLeP l

/-- `TableFormatter._group_scalar_keys` (lines 180-193): split a dict's keys
into those with scalar values (`headers`) and the rest (`more`), both
sorted. -/
def group_scalar_keys (current : List (String × Value)) :
    List String × List String :=
  (sortStrings ((current.filter (fun p => scalar_type p.2)).map Prod.fst),
   sortStrings ((current.filter (fun p => !scalar_type p.2)).map Prod.fst))

/-- The accumulation loop of `_group_scalar_keys_from_list` (lines 170-175):
concatenate the per-element `headers` and `more` keys.  A non-dict element
makes `_group_scalar_keys(item)` raise a `TypeError` in Python (iterating a
non-iterable, or indexing by a non-index), modelled by `none`. -/
def group_keys_union (items : List Value) :
    Option (List String × List String) :=
  match items with
  | [] => some ([], [])
  | item :: rest =>
      match item with
      | Value.map kvs =>
          match group_keys_union rest with
          | none => none
          | some (hs, ms) =>
              some ((group_scalar_keys kvs).1 ++ hs,
                    (group_scalar_keys kvs).2 ++ ms)
      | _ => none

/-- `TableFormatter._group_scalar_keys_from_list` (lines 166-178): the union
(Python `set`) of scalar keys and of non-scalar keys across all elements,
each union sorted — `sorted(set(...))` is the sort of the deduplicated
list. -/
def group_scalar_keys_from_list (items : List Value) :
    Option (List String × List String) :=
  (group_keys_union items).map
    (fun p => (sortStrings p.1.dedup, sortStrings p.2.dedup))

/-- Any value stored in an association list is smaller than the list
(termination measure for the recursion through dict lookups). -/
theorem sizeOf_dlookup_lt {kvs : List (String × Value)} {k : String}
    {v : Value} (h : dlookup kvs k = some v) : sizeOf v < sizeOf kvs := by
  induction kvs with
  | nil => simp [dlookup] at h
  | cons p rest ih =>
      obtain ⟨k', v'⟩ := p
      by_cases hk : (k' == k) = true
      · simp [dlookup, hk] at h
        subst h
        simp only [List.cons.sizeOf_spec, Prod.mk.sizeOf_spec]
        omega
      · simp [dlookup, hk] at h
        have := ih h
        simp only [List.cons.sizeOf_spec]
        omega

mutual

/-- `TableFormatter._build_table` (lines 110-125): return `false` and emit
nothing on a falsy value; otherwise emit `NewSection(title, indent_level)`
and lay the value out, returning `true`.  The directive stream (in emission
order) is returned alongside the boolean; `none` models a Python
exception. -/
def build_table (title : String) (current : Value) (indent_level : Nat) :
    Option (List Directive × Bool) :=
  if falsy current then some ([], false) else
  match current with
  | Value.seq items =>
      match items with
      | [] => some ([Directive.newSection title indent_level], true)
      | x :: xs =>
          match x with
          | Value.map mkvs =>
              (build_sub_table_from_list (Value.map mkvs :: xs) indent_level
                  title).map
                (fun ds => (Directive.newSection title indent_level :: ds, true))
          | _ =>
              some (Directive.newSection title indent_level ::
                      (x :: xs).map (fun item => Directive.addRow [item]), true)
  | Value.map kvs =>
      (build_sub_table_from_dict kvs indent_level).map
        (fun ds => (Directive.newSection title indent_level :: ds, true))
  | _ => some ([Directive.newSection title indent_level], true)
termination_by (sizeOf current, 0, 0)
decreasing_by
  all_goals simp_wf
  all_goals first
    | (apply Prod.Lex.right; apply Prod.Lex.left; omega)
    | (apply Prod.Lex.right; apply Prod.Lex.right; omega)
    | (apply Prod.Lex.left; omega)

/-- `TableFormatter._build_sub_table_from_list` (lines 142-161): group the
key unions, emit one header row, then run the element loop (with its `first`
flag initially true). -/
def build_sub_table_from_list (current : List Value) (indent_level : Nat)
    (title : String) : Option (List Directive) :=
  match group_scalar_keys_from_list current with
  | none => none
  | some (headers, more) =>
      (list_elements current headers more indent_level title true).map
        (fun ds => Directive.addHeaderRow headers :: ds)
termination_by (sizeOf current, 2, 0)
decreasing_by
  all_goals simp_wf
  all_goals first
    | (apply Prod.Lex.right; apply Prod.Lex.left; omega)
    | (apply Prod.Lex.right; apply Prod.Lex.right; omega)
    | (apply Prod.Lex.left; omega)

/-- The `for element in current` loop of `_build_sub_table_from_list`
(lines 146-161): for each element, when not first and `more` is non-empty,
re-emit the `NewSection`/`AddHeaderRow` pair (lines 147-150); then the
element's row of `element.get(header, '')` cells (line 154); then the nested
recursions.  A non-dict element makes `element.get` raise an
`AttributeError` in Python, modelled by `none`. -/
def list_elements (items : List Value) (headers more : List String)
    (indent_level : Nat) (title : String) (first : Bool) :
    Option (List Directive) :=
  match items with
  | [] => some []
  | element :: rest =>
      match element with
      | Value.map kvs =>
          match list_element_more kvs more indent_level with
          | none => none
          | some recs =>
              match list_elements rest headers more indent_level title false with
              | none => none
              | some ds =>
                  some ((if !first && !more.isEmpty then
                           [Directive.newSection title indent_level,
                            Directive.addHeaderRow headers]
                         else []) ++
                        (Directive.addRow (headers.map (fun h => elemGet kvs h)) ::
                          (recs ++ ds)))
      | _ => none
termination_by (sizeOf items, 1, 0)
decreasing_by
  all_goals simp_wf
  all_goals first
    | (apply Prod.Lex.right; apply Prod.Lex.left; omega)
    | (apply Prod.Lex.right; apply Prod.Lex.right; omega)
    | (apply Prod.Lex.left; omega)

/-- The `for remaining in more` loop of `_build_sub_table_from_list`
(lines 155-161): recurse at `indent_level + 1` for each key of `more` that
is present in this specific element (`if remaining in element`). -/
def list_element_more (kvs : List (String × Value)) (more : List String)
    (indent_level : Nat) : Option (List Directive) :=
  match more with
  | [] => some []
  | remaining :: ms =>
      match h : dlookup kvs remaining with
      | none => list_element_more kvs ms indent_level
      | some v =>
          match build_table remaining v (indent_level + 1) with
          | none => none
          | some r =>
              match list_element_more kvs ms indent_level with
              | none => none
              | some ds => some (r.1 ++ ds)
termination_by (sizeOf kvs, 0, sizeOf more)
decreasing_by
  all_goals simp_wf
  all_goals first
    | (apply Prod.Lex.right; apply Prod.Lex.left; omega)
    | (apply Prod.Lex.right; apply Prod.Lex.right; omega)
    | (apply Prod.Lex.left; exact sizeOf_dlookup_lt h)
    | (apply Prod.Lex.left; omega)

/-- `TableFormatter._build_sub_table_from_dict` (lines 127-140): one scalar
key gives a bare `[key, value]` row with no header row (lines 132-134); two
or more give a header row of the sorted scalar keys and one row of their
values (lines 135-137); zero give nothing; then recurse into every
non-scalar key (lines 138-140). -/
def build_sub_table_from_dict (current : List (String × Value))
    (indent_level : Nat) : Option (List Directive) :=
  match dict_more current (group_scalar_keys current).2 indent_level with
  | none => none
  | some rest =>
      match (group_scalar_keys current).1 with
      | [k] => some (Directive.addRow [Value.str k, dGet current k] :: rest)
      | [] => some rest
      | headers =>
          some (Directive.addHeaderRow headers ::
                Directive.addRow (headers.map (fun k => dGet current k)) :: rest)
termination_by (sizeOf current, 2, 0)
decreasing_by
  all_goals simp_wf
  all_goals first
    | (apply Prod.Lex.right; apply Prod.Lex.left; omega)
    | (apply Prod.Lex.right; apply Prod.Lex.right; omega)
    | (apply Prod.Lex.left; omega)

/-- The `for remaining in more` loop of `_build_sub_table_from_dict`
(lines 138-140): recurse via `_build_table(remaining, current[remaining])` at
`indent_level + 1`.  The keys of `more` always come from `current`, so the
`KeyError` branch (`none` on a failed lookup) is unreachable. -/
def dict_more (kvs : List (String × Value)) (more : List String)
    (indent_level : Nat) : Option (List Directive) :=
  match more with
  | [] => some []
  | remaining :: ms =>
      match h : dlookup kvs remaining with
      | none => none
      | some v =>
          match build_table remaining v (indent_level + 1) with
          | none => none
          | some r =>
              match dict_more kvs ms indent_level with
              | none => none
              | some ds => some (r.1 ++ ds)
termination_by (sizeOf kvs, 0, sizeOf more)
decreasing_by
  all_goals simp_wf
  all_goals first
    | (apply Prod.Lex.right; apply Prod.Lex.left; omega)
    | (apply Prod.Lex.right; apply Prod.Lex.right; omega)
    | (apply Prod.Lex.left; exact sizeOf_dlookup_lt h)
    | (apply Prod.Lex.left; omega)

end

/-- Python `k in response_data` on a dict. -/
def hasKey (kvs : List (String × Value)) (k : String) : Bool :=
  (dlookup kvs k).isSome

/-- `Formatter._remove_request_id` (lines 29-39): when the response carries no
`'Errors'` key, drop the `'ResponseMetadata'` entry (after logging its
request id); when `'Errors'` is present, leave the response untouched.
Python's in-place `del response_data['ResponseMetadata']` removes the unique
binding of that key; on the association list this is a filter. -/
def remove_request_id (response_data : List (String × Value)) :
    List (String × Value) :=
  if hasKey response_data "Errors" then response_data
  else if hasKey response_data "ResponseMetadata" then
    response_data.filter (fun p => !(p.1 == "ResponseMetadata"))
  else response_data

/-- The styler chosen by `TableFormatter.__init__` (lines 84-98): none
supplied (`auto`), `Styler()` (`off`), or `ColorizedStyler()` (`on`). -/
inductive StylerChoice where
  | defaultStyler : StylerChoice
  | plainStyler : StylerChoice
  | colorizedStyler : StylerChoice
deriving DecidableEq

/-- The `MultiTable` construction arguments chosen by
`TableFormatter.__init__`. -/
structure TableConfig where
  initial_section : Bool
  column_separator : String
  styler : StylerChoice
deriving DecidableEq

/-- `TableFormatter.__init__` (lines 84-98): build the `MultiTable`
configuration for the three recognized color options, or raise
`ValueError("Unknown color option: %s" % args.color)`. -/
def tableFormatterInit (color : String) : Except String TableConfig :=
  if color == "auto" then
    Except.ok ⟨false, "|", StylerChoice.defaultStyler⟩
  else if color == "off" then
    Except.ok ⟨false, "|", StylerChoice.plainStyler⟩
  else if color == "on" then
    Except.ok ⟨false, "|", StylerChoice.colorizedStyler⟩
  else
    Except.error ("Unknown color option: " ++ color)

/-- `FullyBufferedFormatter.__call__` (lines 55-57) composed with
`TableFormatter._format_response` (line 101): the response dict is filtered
by `_remove_request_id` strictly before `_build_table` sees it. -/
def table_formatter_call (operation_name : String)
    (response_data : List (String × Value)) : Option (List Directive × Bool) :=
  build_table operation_name (Value.map (remove_request_id response_data)) 0

/-- The full table-formatter pipeline including construction: an
unrecognized color option raises in `__init__`, so `__call__` (and hence
`_build_table`) is never reached. -/
def runTableFormatter (color operation_name : String)
    (response_data : List (String × Value)) :
    Except String (Option (List Directive × Bool)) :=
  (tableFormatterInit color).map
    (fun _ => table_formatter_call operation_name response_data)

theorem charListLe_total : ∀ as bs : List Char,
    charListLe as bs = true ∨ charListLe bs as = true := by
  intro as
  induction as with
  | nil => intro bs; left; rfl
  | cons a as ih =>
      intro bs
      cases bs with
      | nil => right; rfl
      | cons b bs =>
          by_cases hab : a = b
          · subst hab
            simpa [charListLe] using ih bs
          · rcases lt_or_gt_of_ne hab with hlt | hgt
            · left; simp [charListLe, hab, hlt]
            · right
              have hba : ¬ b = a := fun hc => hab hc.symm
              simp [charListLe, hba, hgt]

theorem charListLe_trans : ∀ as bs cs : List Char,
    charListLe as bs = true → charListLe bs cs = true →
    charListLe as cs = true := by
  intro as
  induction as with
  | nil => intro bs cs _ _; rfl
  | cons a as ih =>
      intro bs cs h1 h2
      cases bs with
      | nil => simp [charListLe] at h1
      | cons b bs =>
          cases cs with
          | nil => simp [charListLe] at h2
          | cons c cs =>
              by_cases hab : a = b <;> by_cases hbc : b = c
              · subst hab; subst hbc
                simp only [charListLe, if_pos rfl] at h1 h2 ⊢
                exact ih bs cs h1 h2
              · subst hab
                simp only [charListLe, if_pos rfl] at h1
                simp only [charListLe, if_neg hbc, decide_eq_true_eq] at h2
                simp [charListLe, hbc, h2]
              · subst hbc
                simp only [charListLe, if_neg hab, decide_eq_true_eq] at h1
                simp [charListLe, hab, h1]
              · simp only [charListLe, if_neg hab, decide_eq_true_eq] at h1
                simp only [charListLe, if_neg hbc, decide_eq_true_eq] at h2
                have hac : a < c := lt_trans h1 h2
                have : ¬ a = c := ne_of_lt hac
                simp [charListLe, this, hac]

theorem charListLe_antisymm : ∀ as bs : List Char,
    charListLe as bs = true → charListLe bs as = true → as = bs := by
  intro as
  induction as with
  | nil =>
      intro bs _ h2
      cases bs with
      | nil => rfl
      | cons b bs => simp [charListLe] at h2
  | cons a as ih =>
      intro bs h1 h2
      cases bs with
      | nil => simp [charListLe] at h1
      | cons b bs =>
          by_cases hab : a = b
          · subst hab
            simp only [charListLe, if_pos rfl] at h1 h2
            rw [ih bs h1 h2]
          · have hba : ¬ b = a := fun hc => hab hc.symm
            simp only [charListLe, if_neg hab, decide_eq_true_eq] at h1
            simp only [charListLe, if_neg hba, decide_eq_true_eq] at h2
            exact absurd h2 (lt_asymm h1)

instance : IsTotal String strLeP :=
  ⟨fun a b => charListLe_total a.data b.data⟩

instance : IsTrans String strLeP :=
  ⟨fun a b c h1 h2 => charListLe_trans a.data b.data c.data h1 h2⟩

instance : IsAntisymm String strLeP :=
  ⟨fun a b h1 h2 => String.ext (charListLe_antisymm a.data b.data h1 h2)⟩

/-- `sortStrings` output is sorted. -/
theorem sortStrings_sorted (l : List String) :
    List.Sorted strLeP (sortStrings l) :=
  List.sorted_insertionSort strLeP l

/-- `sortStrings` output is a permutation of its input. -/
theorem sortStrings_perm (l : List String) : (sortStrings l).Perm l :=
  List.perm_insertionSort strLeP l

/-- Membership in `sortStrings`. -/
theorem mem_sortStrings {k : String} {l : List String} :
    k ∈ sortStrings l ↔ k ∈ l :=
  (sortStrings_perm l).mem_iff

/-- Sorting two lists that are permutations of each other gives the same
result. -/
theorem sortStrings_eq_of_perm {l₁ l₂ : List String} (h : l₁.Perm l₂) :
    sortStrings l₁ = sortStrings l₂ :=
  List.eq_of_perm_of_sorted
    (((sortStrings_perm l₁).trans h).trans (sortStrings_perm l₂).symm)
    (sortStrings_sorted l₁) (sortStrings_sorted l₂)

theorem dlookup_filter_ne (kvs : List (String × Value)) {k k0 : String}
    (hk : k ≠ k0) :
    dlookup (kvs.filter (fun p => !(p.1 == k0))) k = dlookup kvs k := by
  induction kvs with
  | nil => rfl
  | cons p rest ih =>
      obtain ⟨k', v⟩ := p
      by_cases h0 : k' = k0
      · subst h0
        have hne : (k' == k) = false := by
          simp only [beq_eq_false_iff_ne, ne_eq]
          exact fun hc => hk hc.symm
        simp [List.filter_cons, dlookup, hne, ih]
      · have hkeep : (!(k' == k0)) = true := by simp [h0]
        simp only [List.filter_cons, hkeep, if_pos]
        by_cases hkk : (k' == k) = true
        · simp [dlookup, hkk]
        · simp [dlookup, hkk, ih]

theorem dlookup_filter_self (kvs : List (String × Value)) (k0 : String) :
    dlookup (kvs.filter (fun p => !(p.1 == k0))) k0 = none := by
  induction kvs with
  | nil => rfl
  | cons p rest ih =>
      obtain ⟨k', v⟩ := p
      by_cases h0 : k' = k0
      · subst h0
        simp [List.filter_cons, ih]
      · have hkeep : (!(k' == k0)) = true := by simp [h0]
        simp only [List.filter_cons, hkeep, if_pos]
        have : (k' == k0) = false := by simp [h0]
        simp [dlookup, this, ih]

/-- **C7** (emptiness suppression): `build(title, v)` returns `false` and
emits zero directives — in particular no `NewSection`, so no title — whenever
`v` is an empty mapping, an empty sequence, or null. -/
theorem spec_c7 (title : String) (i : Nat) :
    build_table title (Value.map []) i = some ([], false) ∧
    build_table title (Value.seq []) i = some ([], false) ∧
    build_table title Value.null i = some ([], false) := by
  refine ⟨?_, ?_, ?_⟩ <;> simp [build_table, falsy]

/-- **C4** (scalar-sequence rows): for every non-empty sequence whose
elements are not mappings, `build` emits each element as its own single-cell
row, in the sequence's original order, with no header row (and nothing but
the section directive before the rows). -/
theorem spec_c4 (title : String) (i : Nat) (items : List Value)
    (hne : items ≠ []) (hnm : ∀ el ∈ items, isMap el = false) :
    build_table title (Value.seq items) i =
      some (Directive.newSection title i ::
              items.map (fun item => Directive.addRow [item]), true) := by
  obtain ⟨x, xs, rfl⟩ := List.exists_cons_of_ne_nil hne
  have hx : isMap x = false := hnm x (by simp)
  cases x <;> simp_all [build_table, falsy, isMap]

/-- Witness for C4 at the spec's own example `build("Colors",
["red","green"])`: two single-cell rows, no header. -/
theorem spec_c4_witness :
    build_table "Colors" (Value.seq [Value.str "red", Value.str "green"]) 0 =
      some ([Directive.newSection "Colors" 0,
             Directive.addRow [Value.str "red"],
             Directive.addRow [Value.str "green"]], true) := by
  simpa using
    spec_c4 "Colors" 0 [Value.str "red", Value.str "green"] (by simp) (by decide)

/-- **C9** (response-metadata stripping): the `ResponseMetadata` entry is
removed iff the response has no `Errors` key (with `Errors` present the
response is returned untouched), and every other key's binding is unchanged
by the filtering; `table_formatter_call` applies this filter strictly before
the builder sees the value. -/
theorem spec_c9 (rd : List (String × Value)) :
    (hasKey rd "Errors" = false →
       hasKey (remove_request_id rd) "ResponseMetadata" = false) ∧
    (hasKey rd "Errors" = true → remove_request_id rd = rd) ∧
    (∀ k, k ≠ "ResponseMetadata" →
       dlookup (remove_request_id rd) k = dlookup rd k) ∧
    (∀ op, table_formatter_call op rd =
       build_table op (Value.map (remove_request_id rd)) 0) := by
  refine ⟨?_, ?_, ?_, fun op => rfl⟩
  · intro hErr
    by_cases hRM : hasKey rd "ResponseMetadata" = true
    · simp only [remove_request_id, hErr, hRM]
      simp [hasKey, dlookup_filter_self]
    · simp only [Bool.not_eq_true] at hRM
      simp only [remove_request_id, hErr, hRM]
      simpa using hRM
  · intro hErr
    simp [remove_request_id, hErr]
  · intro k hk
    by_cases hErr : hasKey rd "Errors" = true
    · simp [remove_request_id, hErr]
    · simp only [Bool.not_eq_true] at hErr
      by_cases hRM : hasKey rd "ResponseMetadata" = true
      · simp [remove_request_id, hErr, hRM, dlookup_filter_ne _ hk]
      · simp only [Bool.not_eq_true] at hRM
        simp [remove_request_id, hErr, hRM]

/-- Witness for C9 at a concrete response with a `ResponseMetadata` envelope
and no `Errors` key: the envelope is gone, the other key is untouched. -/
theorem spec_c9_witness :
    hasKey (remove_request_id
      [("Foo", Value.int 1),
       ("ResponseMetadata", Value.map [("RequestId", Value.str "abc")])])
      "ResponseMetadata" = false ∧
    dlookup (remove_request_id
      [("Foo", Value.int 1),
       ("ResponseMetadata", Value.map [("RequestId", Value.str "abc")])])
      "Foo" = some (Value.int 1) :=
  ⟨(spec_c9 _).1 (by decide), (spec_c9 _).2.2.1 "Foo" (by decide)⟩

/-- **C10** (construction-time color check): `TableFormatter.__init__`
succeeds exactly on the options `auto`, `off`, `on`, and on any other option
raises `ValueError` before the builder can run, so no directive stream is
ever produced. -/
theorem spec_c10 (color : String) :
    ((color = "auto" ∨ color = "off" ∨ color = "on") →
       ∃ cfg, tableFormatterInit color = Except.ok cfg) ∧
    (¬(color = "auto" ∨ color = "off" ∨ color = "on") →
       tableFormatterInit color =
           Except.error ("Unknown color option: " ++ color) ∧
       ∀ op rd, runTableFormatter color op rd =
           Except.error ("Unknown color option: " ++ color)) := by
  constructor
  · rintro (rfl | rfl | rfl) <;> exact ⟨_, rfl⟩
  · intro h
    have h1 : ¬ color = "auto" := fun hc => h (Or.inl hc)
    have h2 : ¬ color = "off" := fun hc => h (Or.inr (Or.inl hc))
    have h3 : ¬ color = "on" := fun hc => h (Or.inr (Or.inr hc))
    constructor
    · simp [tableFormatterInit, h1, h2, h3]
    · intro op rd
      simp [runTableFormatter, tableFormatterInit, h1, h2, h3, Except.map]

/-- Witness for C10: `auto` constructs, `purple` fails with the exact
Python error message and no build is attempted. -/
theorem spec_c10_witness :
    (∃ cfg, tableFormatterInit "auto" = Except.ok cfg) ∧
    runTableFormatter "purple" "Op" [] =
      Except.error ("Unknown color option: " ++ "purple") :=
  ⟨(spec_c10 "auto").1 (Or.inl rfl),
   ((spec_c10 "purple").2 (by decide)).2 "Op" []⟩

/-- Unfolding of `_build_table` on a non-empty dict: section directive
followed by the dict sub-table. -/
theorem build_table_map_eq (title : String) (i : Nat)
    (kvs : List (String × Value)) (hne : kvs ≠ []) :
    build_table title (Value.map kvs) i =
      (build_sub_table_from_dict kvs i).map
        (fun ds => (Directive.newSection title i :: ds, true)) := by
  rw [build_table]
  simp [falsy, hne]

/-- A `build` call that returns `false` has emitted nothing. -/
theorem build_table_false_nil {title : String} {v : Value} {i : Nat}
    {ds : List Directive} (h : build_table title v i = some (ds, false)) :
    ds = [] := by
  by_cases hf : falsy v = true
  · rw [build_table.eq_def, if_pos hf] at h
    simp only [Option.some.injEq, Prod.mk.injEq] at h
    exact h.1.symm
  · exfalso
    rw [build_table.eq_def, if_neg hf] at h
    cases v with
    | seq items =>
        cases items with
        | nil => simp at h
        | cons x xs => cases x <;> simp [Option.map_eq_some'] at h
    | map kvs => simp [Option.map_eq_some'] at h
    | null => simp at h
    | str s => simp at h
    | int n => simp at h
    | bool b => simp at h

/-- The per-key recursion streams of the final loop of
`_build_sub_table_from_dict`: for each key, the directives contributed by
`_build_table(key, current[key], indent_level + 1)`, kept as separate
blocks. -/
def nested_streams (kvs : List (String × Value)) :
    List String → Nat → Option (List (List Directive))
  | [], _ => some []
  | k :: ks, i =>
      match dlookup kvs k with
      | none => none
      | some v =>
          match build_table k v (i + 1) with
          | none => none
          | some r =>
              match nested_streams kvs ks i with
              | none => none
              | some rest => some (r.1 :: rest)

/-- `dict_more` is the concatenation of the per-key recursion streams. -/
theorem dict_more_eq_nested (kvs : List (String × Value)) (ks : List String)
    (i : Nat) :
    dict_more kvs ks i = (nested_streams kvs ks i).map List.flatten := by
  induction ks with
  | nil => simp [dict_more, nested_streams]
  | cons k ks ih =>
      rw [dict_more, nested_streams]
      cases hdl : dlookup kvs k with
      | none =>
          simp only [hdl]
          rfl
      | some v =>
          simp only [hdl]
          cases hbt : build_table k v (i + 1) with
          | none =>
              simp only [hbt]
              rfl
          | some r =>
              simp only [hbt]
              cases hns : nested_streams kvs ks i with
              | none => simp only [hns, ih, Option.map_none']
              | some rest =>
                  simp only [hns, ih, Option.map_some']
                  simp [List.flatten_cons]

/-- **C5** (mapping layout, own-level content): for a non-empty mapping,
exactly one scalar key `k` gives a single two-cell row `[k, mapping[k]]` and
no header row; two or more scalar keys give one `AddHeaderRow` of the sorted
scalar keys followed by exactly one `AddRow` of the corresponding values;
zero scalar keys give no header and no row at the mapping's own level (only
the nested sub-sections follow the section directive). -/
theorem spec_c5 (title : String) (i : Nat) (kvs : List (String × Value))
    (hne : kvs ≠ []) :
    (∀ k, (group_scalar_keys kvs).1 = [k] →
       build_table title (Value.map kvs) i =
         (dict_more kvs (group_scalar_keys kvs).2 i).map
           (fun rest => (Directive.newSection title i ::
              Directive.addRow [Value.str k, dGet kvs k] :: rest, true))) ∧
    (∀ h1 h2 hs, (group_scalar_keys kvs).1 = h1 :: h2 :: hs →
       build_table title (Value.map kvs) i =
         (dict_more kvs (group_scalar_keys kvs).2 i).map
           (fun rest => (Directive.newSection title i ::
              Directive.addHeaderRow (h1 :: h2 :: hs) ::
              Directive.addRow ((h1 :: h2 :: hs).map (fun k => dGet kvs k)) ::
              rest, true))) ∧
    ((group_scalar_keys kvs).1 = [] →
       build_table title (Value.map kvs) i =
         (dict_more kvs (group_scalar_keys kvs).2 i).map
           (fun rest => (Directive.newSection title i :: rest, true))) := by
  refine ⟨?_, ?_, ?_⟩
  · intro k hk
    rw [build_table_map_eq title i kvs hne, build_sub_table_from_dict, hk]
    cases hdm : dict_more kvs (group_scalar_keys kvs).2 i <;> simp
  · intro h1 h2 hs hk
    rw [build_table_map_eq title i kvs hne, build_sub_table_from_dict, hk]
    cases hdm : dict_more kvs (group_scalar_keys kvs).2 i <;> simp
  · intro hk
    rw [build_table_map_eq title i kvs hne, build_sub_table_from_dict, hk]
    cases hdm : dict_more kvs (group_scalar_keys kvs).2 i <;> simp

/-- Witness for C5 at the spec's example `build("Item", {"name":"widget"})`:
no header row, exactly one row `["name", "widget"]`. -/
theorem spec_c5_witness :
    build_table "Item" (Value.map [("name", Value.str "widget")]) 0 =
      some ([Directive.newSection "Item" 0,
             Directive.addRow [Value.str "name", Value.str "widget"]], true) := by
  have h := (spec_c5 "Item" 0 [("name", Value.str "widget")] (by simp)).1
    "name" (by decide)
  rw [h]
  simp [group_scalar_keys, scalar_type, sortStrings, List.insertionSort,
        dict_more, dGet, dlookup]

/-- **C6** (nested-key recursion): for every non-empty mapping, the nested
keys are visited in sorted order; the emitted stream is the section
directive, then the mapping's own header/row content (which contains no
section directive), then the concatenation of the streams of the recursive
`build(key, mapping[key])` calls at `indent_level + 1`, one block per nested
key in order; and any recursive call that returns `false` contributes an
empty block. -/
theorem spec_c6 (title : String) (i : Nat) (kvs : List (String × Value))
    (hne : kvs ≠ []) :
    List.Sorted strLeP (group_scalar_keys kvs).2 ∧
    (∃ own, (∀ d ∈ own, ∀ t j, d ≠ Directive.newSection t j) ∧
       build_table title (Value.map kvs) i =
         (nested_streams kvs (group_scalar_keys kvs).2 i).map
           (fun streams =>
             (Directive.newSection title i :: (own ++ streams.flatten), true))) ∧
    (∀ k v ds, build_table k v (i + 1) = some (ds, false) → ds = []) := by
  refine ⟨?_, ?_, fun k v ds h => build_table_false_nil h⟩
  · simpa [group_scalar_keys] using
      sortStrings_sorted ((kvs.filter (fun p => !scalar_type p.2)).map Prod.fst)
  · have base := build_table_map_eq title i kvs hne
    rw [build_sub_table_from_dict] at base
    rw [dict_more_eq_nested] at base
    cases hns : nested_streams kvs (group_scalar_keys kvs).2 i with
    | none =>
        rw [hns] at base
        refine ⟨[], by simp, ?_⟩
        simp at base
        simp [hns, base]
    | some streams =>
        rw [hns] at base
        cases hh : (group_scalar_keys kvs).1 with
        | nil =>
            rw [hh] at base
            refine ⟨[], by simp, ?_⟩
            simp at base
            simp [hns, base]
        | cons h1 t =>
            cases t with
            | nil =>
                rw [hh] at base
                refine ⟨[Directive.addRow [Value.str h1, dGet kvs h1]],
                        by simp, ?_⟩
                simp at base
                simp [hns, base]
            | cons h2 hs =>
                rw [hh] at base
                refine ⟨[Directive.addHeaderRow (h1 :: h2 :: hs),
                         Directive.addRow ((h1 :: h2 :: hs).map
                           (fun k => dGet kvs k))], by simp, ?_⟩
                simp at base
                simp [hns, base]

/-- Witness for C6 at `{"z": {"q":"2"}, "a": 1, "b": []}`: nested keys
`["b","z"]` sorted, `b`'s recursive call returns `false` and contributes an
empty block, `z`'s contributes its section. -/
theorem spec_c6_witness :
    List.Sorted strLeP
      (group_scalar_keys [("z", Value.map [("q", Value.str "2")]),
                          ("a", Value.int 1), ("b", Value.seq [])]).2 ∧
    (∃ own, (∀ d ∈ own, ∀ t j, d ≠ Directive.newSection t j) ∧
       build_table "Root" (Value.map [("z", Value.map [("q", Value.str "2")]),
                          ("a", Value.int 1), ("b", Value.seq [])]) 0 =
         (nested_streams [("z", Value.map [("q", Value.str "2")]),
                          ("a", Value.int 1), ("b", Value.seq [])]
            (group_scalar_keys [("z", Value.map [("q", Value.str "2")]),
                          ("a", Value.int 1), ("b", Value.seq [])]).2 0).map
           (fun streams =>
             (Directive.newSection "Root" 0 :: (own ++ streams.flatten),
              true))) :=
  ⟨(spec_c6 "Root" 0 _ (by simp)).1, (spec_c6 "Root" 0 _ (by simp)).2.1⟩

/-- The `NewSection`/`AddHeaderRow` pair re-emitted by lines 147-150 of
`_build_sub_table_from_list` before every element except the first, provided
`more` is non-empty (`if not first and more:`). -/
def list_sep (title : String) (i : Nat) (headers more : List String) :
    List Directive :=
  if more.isEmpty then []
  else [Directive.newSection title i, Directive.addHeaderRow headers]

/-- One element's contribution to the list-of-mappings layout, without the
re-emitted section/header pair: the element's row of
`element.get(header, '')` cells followed by its nested recursion streams. -/
def element_block (kvs : List (String × Value)) (headers more : List String)
    (i : Nat) : Option (List Directive) :=
  (list_element_more kvs more i).map
    (fun recs =>
      Directive.addRow (headers.map (fun h => elemGet kvs h)) :: recs)

/-- The per-element blocks of the `for element in current` loop, one per
element of the sequence, in original order. -/
def element_blocks :
    List (List (String × Value)) → List String → List String → Nat →
    Option (List (List Directive))
  | [], _, _, _ => some []
  | kvs :: rest, headers, more, i =>
      match element_block kvs headers more i with
      | none => none
      | some b =>
          match element_blocks rest headers more i with
          | none => none
          | some bs => some (b :: bs)

/-- Concatenate blocks, inserting `sep` before every block except the
first. -/
def sep_blocks (sep : List Directive) : List (List Directive) → List Directive
  | [] => []
  | b :: bs => b ++ (bs.map (fun b' => sep ++ b')).flatten

/-- The element loop with `first = False`: every block is preceded by the
separator pair. -/
theorem list_elements_false_eq (kvss : List (List (String × Value)))
    (headers more : List String) (i : Nat) (title : String) :
    list_elements (kvss.map Value.map) headers more i title false =
      (element_blocks kvss headers more i).map
        (fun bs =>
          (bs.map (fun b => list_sep title i headers more ++ b)).flatten) := by
  induction kvss with
  | nil => simp [list_elements, element_blocks]
  | cons kvs rest ih =>
      rw [List.map_cons, list_elements]
      cases hlm : list_element_more kvs more i with
      | none => simp only [hlm, element_blocks, element_block, Option.map_none']
      | some recs =>
          simp only [hlm, element_blocks, element_block, Option.map_some']
          cases hbs : element_blocks rest headers more i with
          | none =>
              have hrest := ih
              rw [hbs] at hrest
              simp only [Option.map_none'] at hrest
              simp only [hrest, hbs]
              rfl
          | some bs =>
              have hrest := ih
              rw [hbs] at hrest
              simp only [Option.map_some'] at hrest
              simp only [hrest, hbs, Option.map_some']
              cases hm : more.isEmpty <;>
                simp [list_sep, hm, List.flatten_cons, List.append_assoc]

/-- The element loop with `first = True` (the entry point): the first block
gets no separator pair, every later one does. -/
theorem list_elements_true_eq (kvss : List (List (String × Value)))
    (headers more : List String) (i : Nat) (title : String) :
    list_elements (kvss.map Value.map) headers more i title true =
      (element_blocks kvss headers more i).map
        (fun bs => sep_blocks (list_sep title i headers more) bs) := by
  cases kvss with
  | nil => simp [list_elements, element_blocks, sep_blocks]
  | cons kvs rest =>
      rw [List.map_cons, list_elements]
      cases hlm : list_element_more kvs more i with
      | none => simp only [hlm, element_blocks, element_block, Option.map_none']
      | some recs =>
          simp only [hlm, element_blocks, element_block, Option.map_some']
          have hrest := list_elements_false_eq rest headers more i title
          cases hbs : element_blocks rest headers more i with
          | none =>
              rw [hbs] at hrest
              simp only [Option.map_none'] at hrest
              simp only [hrest, hbs]
              rfl
          | some bs =>
              rw [hbs] at hrest
              simp only [Option.map_some'] at hrest
              simp only [hrest, hbs, Option.map_some', sep_blocks]
              simp

/-- Unfolding of `_build_table` on a non-empty sequence of dicts: section
directive, one header row, then the separated element blocks. -/
theorem build_table_listmap_eq (title : String) (i : Nat)
    (kvss : List (List (String × Value))) (hne : kvss ≠ [])
    (headers more : List String)
    (hg : group_scalar_keys_from_list (kvss.map Value.map) =
            some (headers, more)) :
    build_table title (Value.seq (kvss.map Value.map)) i =
      (element_blocks kvss headers more i).map
        (fun bs =>
          (Directive.newSection title i :: Directive.addHeaderRow headers ::
             sep_blocks (list_sep title i headers more) bs, true)) := by
  obtain ⟨kvs0, rest, rfl⟩ := List.exists_cons_of_ne_nil hne
  rw [build_table.eq_def]
  have hfal : falsy (Value.seq ((kvs0 :: rest).map Value.map)) = false := by
    simp [falsy]
  rw [hfal]
  simp only [List.map_cons]
  rw [build_sub_table_from_list]
  rw [List.map_cons] at hg
  rw [hg]
  have hle := list_elements_true_eq (kvs0 :: rest) headers more i title
  rw [List.map_cons] at hle
  simp only [hle]
  cases hbs : element_blocks (kvs0 :: rest) headers more i <;> simp [hbs]

/-- **C3** (per-element header re-emission): in the list-of-mappings layout
the stream is the section directive, one `AddHeaderRow`, and then the
per-element blocks joined by `sep_blocks`, which inserts the separator
before every element's row except the first; the separator is the fresh
`NewSection` (same title, same indent) plus `AddHeaderRow` pair exactly when
the union `more` of nested keys is non-empty, and is empty (rows accumulate
under the single initial header) when `more` is empty. -/
theorem spec_c3 (title : String) (i : Nat)
    (kvss : List (List (String × Value))) (hne : kvss ≠ [])
    (headers more : List String)
    (hg : group_scalar_keys_from_list (kvss.map Value.map) =
            some (headers, more)) :
    build_table title (Value.seq (kvss.map Value.map)) i =
      (element_blocks kvss headers more i).map
        (fun bs =>
          (Directive.newSection title i :: Directive.addHeaderRow headers ::
             sep_blocks (list_sep title i headers more) bs, true)) ∧
    (more = [] → list_sep title i headers more = []) ∧
    (more ≠ [] → list_sep title i headers more =
       [Directive.newSection title i, Directive.addHeaderRow headers]) := by
  refine ⟨build_table_listmap_eq title i kvss hne headers more hg, ?_, ?_⟩
  · intro hm
    simp [list_sep, hm]
  · intro hm
    simp [list_sep, hm]

/-- Witness for C3 at the spec's nested-anchoring example
`build("Items", [{"id":1,"tags":["a","b"]},{"id":2,"tags":["c"]}])`: the
separator pair is re-emitted (same title, indent 0) because `more =
["tags"]` is non-empty. -/
theorem spec_c3_witness :
    build_table "Items"
      (Value.seq
        ([[("id", Value.int 1), ("tags", Value.seq [Value.str "a", Value.str "b"])],
          [("id", Value.int 2), ("tags", Value.seq [Value.str "c"])]].map
          Value.map)) 0 =
      (element_blocks
        [[("id", Value.int 1), ("tags", Value.seq [Value.str "a", Value.str "b"])],
         [("id", Value.int 2), ("tags", Value.seq [Value.str "c"])]]
        ["id"] ["tags"] 0).map
        (fun bs =>
          (Directive.newSection "Items" 0 :: Directive.addHeaderRow ["id"] ::
             sep_blocks (list_sep "Items" 0 ["id"] ["tags"]) bs, true)) ∧
    list_sep "Items" 0 ["id"] ["tags"] =
      [Directive.newSection "Items" 0, Directive.addHeaderRow ["id"]] := by
  have h := spec_c3 "Items" 0
    [[("id", Value.int 1), ("tags", Value.seq [Value.str "a", Value.str "b"])],
     [("id", Value.int 2), ("tags", Value.seq [Value.str "c"])]]
    (by simp) ["id"] ["tags"] (by decide)
  exact ⟨h.1, h.2.2 (by simp)⟩

/-- Membership in the key unions accumulated by
`_group_scalar_keys_from_list` over a list of dicts: a key is in the scalar
(resp. nested) union iff some element classifies it as scalar
(resp. nested). -/
theorem mem_group_keys_union :
    ∀ (kvss : List (List (String × Value))) (hs ms : List String),
      group_keys_union (kvss.map Value.map) = some (hs, ms) →
      ∀ k, (k ∈ hs ↔ ∃ kvs ∈ kvss, k ∈ (group_scalar_keys kvs).1) ∧
           (k ∈ ms ↔ ∃ kvs ∈ kvss, k ∈ (group_scalar_keys kvs).2) := by
  intro kvss
  induction kvss with
  | nil =>
      intro hs ms h k
      simp only [List.map_nil, group_keys_union, Option.some.injEq,
        Prod.mk.injEq] at h
      obtain ⟨h1, h2⟩ := h
      subst h1
      subst h2
      simp
  | cons kvs rest ih =>
      intro hs ms h k
      rw [List.map_cons, group_keys_union] at h
      cases hr : group_keys_union (rest.map Value.map) with
      | none =>
          rw [hr] at h
          cases h
      | some p =>
          obtain ⟨hs', ms'⟩ := p
          rw [hr] at h
          simp only [Option.some.injEq, Prod.mk.injEq] at h
          obtain ⟨h1, h2⟩ := h
          subst h1
          subst h2
          have ihk := ih hs' ms' hr k
          constructor
          · simp only [List.mem_append, ihk.1, List.mem_cons,
              exists_eq_or_imp]
          · simp only [List.mem_append, ihk.2, List.mem_cons,
              exists_eq_or_imp]

/-- Each element of the list contributes a block whose first directive is
that element's row. -/
theorem element_blocks_row_mem :
    ∀ (kvss : List (List (String × Value))) (headers more : List String)
      (i : Nat) (bs : List (List Directive)),
      element_blocks kvss headers more i = some bs →
      ∀ kvs ∈ kvss, ∃ b ∈ bs,
        Directive.addRow (headers.map (fun h => elemGet kvs h)) ∈ b := by
  intro kvss
  induction kvss with
  | nil =>
      intro headers more i bs h kvs hk
      simp at hk
  | cons kvs0 rest ih =>
      intro headers more i bs h kvs hk
      rw [element_blocks] at h
      cases hb0 : element_block kvs0 headers more i with
      | none => rw [hb0] at h; cases h
      | some b0 =>
          rw [hb0] at h
          cases hbs : element_blocks rest headers more i with
          | none => rw [hbs] at h; cases h
          | some bs' =>
              rw [hbs] at h
              simp only [Option.some.injEq] at h
              subst h
              rcases List.mem_cons.mp hk with rfl | hk'
              · refine ⟨b0, List.mem_cons_self _ _, ?_⟩
                simp only [element_block, Option.map_eq_some'] at hb0
                obtain ⟨recs, _, hb0eq⟩ := hb0
                rw [← hb0eq]
                exact List.mem_cons_self _ _
              · obtain ⟨b, hbmem, hrow⟩ := ih headers more i bs' hbs kvs hk'
                exact ⟨b, List.mem_cons_of_mem _ hbmem, hrow⟩

/-- Every directive of every block survives into the separated
concatenation. -/
theorem mem_sep_blocks (sep : List Directive) :
    ∀ (bs : List (List Directive)) (b : List Directive), b ∈ bs →
      ∀ d ∈ b, d ∈ sep_blocks sep bs := by
  intro bs
  induction bs with
  | nil => intro b hb; simp at hb
  | cons b0 bs' ih =>
      intro b hb d hd
      rcases List.mem_cons.mp hb with rfl | hb'
      · exact List.mem_append_left _ hd
      · refine List.mem_append_right _ ?_
        rw [List.mem_flatten]
        exact ⟨sep ++ b, List.mem_map_of_mem _ hb', List.mem_append_right _ hd⟩

/-- **C2** (column union completeness): for a non-empty sequence of
mappings, the emitted header row is the sorted, duplicate-free union of the
per-element scalar keys (a key appears iff some element classifies it as
scalar), and each element contributes a row whose cells are, per header key
in order, `element.get(key, '')` — the element's value, or the empty-string
cell when the element lacks the key, so a missing key never fails. -/
theorem spec_c2 (title : String) (i : Nat)
    (kvss : List (List (String × Value))) (hne : kvss ≠ [])
    (headers more : List String)
    (hg : group_scalar_keys_from_list (kvss.map Value.map) =
            some (headers, more)) :
    List.Sorted strLeP headers ∧ headers.Nodup ∧
    (∀ k, k ∈ headers ↔ ∃ kvs ∈ kvss, k ∈ (group_scalar_keys kvs).1) ∧
    (∀ kvs k, dlookup kvs k = none → elemGet kvs k = Value.str "") ∧
    (∀ ds b,
       build_table title (Value.seq (kvss.map Value.map)) i = some (ds, b) →
       Directive.addHeaderRow headers ∈ ds ∧
       ∀ kvs ∈ kvss,
         Directive.addRow (headers.map (fun h => elemGet kvs h)) ∈ ds) := by
  obtain ⟨⟨hs, ms⟩, hu, hf⟩ :
      ∃ p, group_keys_union (kvss.map Value.map) = some p ∧
        (sortStrings p.1.dedup, sortStrings p.2.dedup) = (headers, more) := by
    simpa [group_scalar_keys_from_list, Option.map_eq_some'] using hg
  simp only [Prod.mk.injEq] at hf
  obtain ⟨hfh, hfm⟩ := hf
  subst hfh
  refine ⟨sortStrings_sorted _,
    ((sortStrings_perm _).nodup_iff).mpr (List.nodup_dedup _), ?_, ?_, ?_⟩
  · intro k
    rw [mem_sortStrings, List.mem_dedup]
    exact (mem_group_keys_union kvss hs ms hu k).1
  · intro kvs k hnone
    simp [elemGet, hnone]
  · intro ds b hb
    rw [build_table_listmap_eq title i kvss hne _ more hg] at hb
    cases hbs : element_blocks kvss (sortStrings hs.dedup) more i with
    | none => rw [hbs] at hb; cases hb
    | some bs =>
        rw [hbs] at hb
        simp only [Option.map_some', Option.some.injEq, Prod.mk.injEq] at hb
        obtain ⟨hds, hbb⟩ := hb
        subst hds
        constructor
        · simp
        · intro kvs hk
          obtain ⟨blk, hblk, hrow⟩ :=
            element_blocks_row_mem kvss _ more i bs hbs kvs hk
          exact List.mem_cons_of_mem _ (List.mem_cons_of_mem _
            (mem_sep_blocks _ bs blk hblk _ hrow))

/-- Witness for C2 at the spec's scenario (element A has `"x"`, element B is
empty, element C has `"y"`): the header row is `["x","y"]` sorted, and B's
row is `['', '']` — empty cells, no failure. -/
theorem spec_c2_witness :
    (∀ k, k ∈ ["x", "y"] ↔
       ∃ kvs ∈ [[("x", Value.str "1")], ([] : List (String × Value)),
                [("y", Value.str "2")]],
         k ∈ (group_scalar_keys kvs).1) ∧
    Directive.addHeaderRow ["x", "y"] ∈
      [Directive.newSection "U" 0, Directive.addHeaderRow ["x", "y"],
       Directive.addRow [Value.str "1", Value.str ""],
       Directive.addRow [Value.str "", Value.str ""],
       Directive.addRow [Value.str "", Value.str "2"]] ∧
    Directive.addRow [Value.str "", Value.str ""] ∈
      [Directive.newSection "U" 0, Directive.addHeaderRow ["x", "y"],
       Directive.addRow [Value.str "1", Value.str ""],
       Directive.addRow [Value.str "", Value.str ""],
       Directive.addRow [Value.str "", Value.str "2"]] := by
  have h := spec_c2 "U" 0
    [[("x", Value.str "1")], [], [("y", Value.str "2")]] (by simp)
    ["x", "y"] [] (by decide)
  have hb : build_table "U"
      (Value.seq (List.map Value.map
        [[("x", Value.str "1")], [], [("y", Value.str "2")]])) 0 =
      some ([Directive.newSection "U" 0, Directive.addHeaderRow ["x", "y"],
             Directive.addRow [Value.str "1", Value.str ""],
             Directive.addRow [Value.str "", Value.str ""],
             Directive.addRow [Value.str "", Value.str "2"]], true) := by
    simp [build_table, build_sub_table_from_list, list_elements,
          list_element_more, build_sub_table_from_dict, dict_more,
          group_scalar_keys_from_list, group_keys_union, group_scalar_keys,
          sortStrings, List.insertionSort, List.orderedInsert, strLeP, strLe,
          charListLe, elemGet, dGet, dlookup, falsy, scalar_type, List.dedup]
  refine ⟨h.2.2.1, ?_, ?_⟩
  · exact (h.2.2.2.2 _ true hb).1
  · simpa using (h.2.2.2.2 _ true hb).2 [] (by simp)

/-- Every cell of every `AddRow` directive in the stream passes
`_scalar_type`. -/
def rows_scalar (ds : List Directive) : Bool :=
  ds.all (fun d =>
    match d with
    | Directive.addRow cells => cells.all scalar_type
    | _ => true)

/-- Shape condition on one sequence node under which the builder places only
scalar cells for it: a sequence taken down the single-cell-rows path (first
element not a dict) must contain only scalars, and a sequence taken down the
list-of-dicts path must contain only dicts and must not classify any key as
scalar in one element and non-scalar in another (the key unions `headers`
and `more` are disjoint). -/
def seqShapeSafe (items : List Value) : Bool :=
  match items with
  | [] => true
  | x :: xs =>
      match x with
      | Value.map _ =>
          (x :: xs).all isMap &&
          (match group_scalar_keys_from_list (x :: xs) with
           | some (hs, ms) => hs.all (fun k => !(ms.contains k))
           | none => false)
      | _ => (x :: xs).all (fun e => scalar_type e)

mutual

/-- The inputs on which every inline cell the builder emits is scalar:
every sequence node satisfies `seqShapeSafe` and every mapping node has
duplicate-free keys (as every Python dict does). -/
def cellSafe : Value → Bool
  | Value.null => true
  | Value.str _ => true
  | Value.int _ => true
  | Value.bool _ => true
  | Value.seq items => seqShapeSafe items && cellSafeList items
  | Value.map kvs => decide ((kvs.map Prod.fst).Nodup) && cellSafeKvs kvs

/-- `cellSafe` on every element of a list. -/
def cellSafeList : List Value → Bool
  | [] => true
  | x :: xs => cellSafe x && cellSafeList xs

/-- `cellSafe` on every value of an association list. -/
def cellSafeKvs : List (String × Value) → Bool
  | [] => true
  | p :: xs => cellSafe p.2 && cellSafeKvs xs

end

theorem rows_scalar_append (a b : List Directive) :
    rows_scalar (a ++ b) = (rows_scalar a && rows_scalar b) := by
  simp [rows_scalar, List.all_append]

theorem dlookup_some_mem {kvs : List (String × Value)} {k : String}
    {v : Value} (h : dlookup kvs k = some v) : (k, v) ∈ kvs := by
  induction kvs with
  | nil => simp [dlookup] at h
  | cons p rest ih =>
      obtain ⟨k', v'⟩ := p
      by_cases hk : (k' == k) = true
      · simp only [dlookup, hk, if_pos, Option.some.injEq] at h
        subst h
        have : k' = k := by simpa using hk
        subst this
        exact List.mem_cons_self _ _
      · simp only [dlookup, hk] at h
        simp only [Bool.false_eq_true, if_false] at h
        exact List.mem_cons_of_mem _ (ih h)

theorem dlookup_eq_of_nodup_mem {kvs : List (String × Value)} {k : String}
    {v : Value} (hnd : (kvs.map Prod.fst).Nodup) (h : (k, v) ∈ kvs) :
    dlookup kvs k = some v := by
  induction kvs with
  | nil => simp at h
  | cons p rest ih =>
      obtain ⟨k', v'⟩ := p
      rw [List.map_cons, List.nodup_cons] at hnd
      rcases List.mem_cons.mp h with heq | hmem
      · cases heq
        simp [dlookup]
      · have hk : k' ≠ k := by
          intro hc
          subst hc
          have hin : k' ∈ rest.map Prod.fst := by
            simpa using List.mem_map_of_mem Prod.fst hmem
          exact absurd hin (by simpa using hnd.1)
        have : (k' == k) = false := by simpa using hk
        simp [dlookup, this, ih hnd.2 hmem]

theorem cellSafeKvs_values {kvs : List (String × Value)}
    (h : cellSafeKvs kvs = true) : ∀ p ∈ kvs, cellSafe p.2 = true := by
  induction kvs with
  | nil => intro p hp; simp at hp
  | cons q rest ih =>
      intro p hp
      rw [cellSafeKvs, Bool.and_eq_true] at h
      rcases List.mem_cons.mp hp with rfl | hmem
      · exact h.1
      · exact ih h.2 p hmem

theorem cellSafeList_mem {items : List Value}
    (h : cellSafeList items = true) : ∀ x ∈ items, cellSafe x = true := by
  induction items with
  | nil => intro x hx; simp at hx
  | cons y rest ih =>
      intro x hx
      rw [cellSafeList, Bool.and_eq_true] at h
      rcases List.mem_cons.mp hx with rfl | hmem
      · exact h.1
      · exact ih h.2 x hmem

theorem all_maps_exists_kvss {items : List Value}
    (h : items.all isMap = true) :
    ∃ kvss : List (List (String × Value)), items = kvss.map Value.map := by
  induction items with
  | nil => exact ⟨[], rfl⟩
  | cons x xs ih =>
      rw [List.all_cons, Bool.and_eq_true] at h
      obtain ⟨kvss, hk⟩ := ih h.2
      cases x with
      | map kvs => exact ⟨kvs :: kvss, by simp [hk]⟩
      | null => simp [isMap] at h
      | str s => simp [isMap] at h
      | int n => simp [isMap] at h
      | bool b => simp [isMap] at h
      | seq l => simp [isMap] at h

theorem mem_group_scalar_1_iff {kvs : List (String × Value)} {k : String} :
    k ∈ (group_scalar_keys kvs).1 ↔
      ∃ v, (k, v) ∈ kvs ∧ scalar_type v = true := by
  simp only [group_scalar_keys, mem_sortStrings, List.mem_map,
    List.mem_filter]
  constructor
  · rintro ⟨⟨k', v⟩, ⟨hmem, hsc⟩, rfl⟩
    exact ⟨v, hmem, hsc⟩
  · rintro ⟨v, hmem, hsc⟩
    exact ⟨(k, v), ⟨hmem, hsc⟩, rfl⟩

theorem mem_group_scalar_2_iff {kvs : List (String × Value)} {k : String} :
    k ∈ (group_scalar_keys kvs).2 ↔
      ∃ v, (k, v) ∈ kvs ∧ scalar_type v = false := by
  simp only [group_scalar_keys, mem_sortStrings, List.mem_map,
    List.mem_filter]
  constructor
  · rintro ⟨⟨k', v⟩, ⟨hmem, hsc⟩, rfl⟩
    exact ⟨v, hmem, by simpa using hsc⟩
  · rintro ⟨v, hmem, hsc⟩
    exact ⟨(k, v), ⟨hmem, by simpa using hsc⟩, rfl⟩

theorem sizeOf_val_lt_of_mem_kvs {kvs : List (String × Value)} {k : String}
    {v : Value} (h : (k, v) ∈ kvs) : sizeOf v < sizeOf kvs := by
  have h1 := List.sizeOf_lt_of_mem h
  simp only [Prod.mk.sizeOf_spec] at h1
  omega

theorem list_element_more_rows_scalar (kvs : List (String × Value)) (i : Nat)
    (hrec : ∀ k v, dlookup kvs k = some v →
      ∀ r, build_table k v (i + 1) = some r → rows_scalar r.1 = true) :
    ∀ (more : List String) (ds : List Directive),
      list_element_more kvs more i = some ds → rows_scalar ds = true := by
  intro more
  induction more with
  | nil =>
      intro ds h
      rw [list_element_more] at h
      simp only [Option.some.injEq] at h
      subst h
      rfl
  | cons k ms ih =>
      intro ds h
      rw [list_element_more] at h
      split at h
      · exact ih ds h
      · rename_i v hdl
        split at h
        · cases h
        · rename_i r hbt
          split at h
          · cases h
          · rename_i ds' hlm
            simp only [Option.some.injEq] at h
            subst h
            rw [rows_scalar_append, Bool.and_eq_true]
            exact ⟨hrec k v hdl r hbt, ih ds' hlm⟩

theorem dict_more_rows_scalar (kvs : List (String × Value)) (i : Nat)
    (hrec : ∀ k v, dlookup kvs k = some v →
      ∀ r, build_table k v (i + 1) = some r → rows_scalar r.1 = true) :
    ∀ (more : List String) (ds : List Directive),
      dict_more kvs more i = some ds → rows_scalar ds = true := by
  intro more
  induction more with
  | nil =>
      intro ds h
      rw [dict_more] at h
      simp only [Option.some.injEq] at h
      subst h
      rfl
  | cons k ms ih =>
      intro ds h
      rw [dict_more] at h
      split at h
      · cases h
      · rename_i v hdl
        split at h
        · cases h
        · rename_i r hbt
          split at h
          · cases h
          · rename_i ds' hlm
            simp only [Option.some.injEq] at h
            subst h
            rw [rows_scalar_append, Bool.and_eq_true]
            exact ⟨hrec k v hdl r hbt, ih ds' hlm⟩

theorem list_elements_rows_scalar (headers more : List String) (i : Nat)
    (title : String) :
    ∀ items : List Value,
      (∀ kvs_e, Value.map kvs_e ∈ items →
         (∀ h ∈ headers, scalar_type (elemGet kvs_e h) = true) ∧
         (∀ k v, dlookup kvs_e k = some v →
            ∀ r, build_table k v (i + 1) = some r → rows_scalar r.1 = true)) →
      ∀ (first : Bool) (ds : List Directive),
        list_elements items headers more i title first = some ds →
        rows_scalar ds = true := by
  intro items
  induction items with
  | nil =>
      intro _ first ds h
      rw [list_elements] at h
      simp only [Option.some.injEq] at h
      subst h
      rfl
  | cons x rest ih =>
      intro hP first ds h
      cases x with
      | map kvs_e =>
          rw [list_elements] at h
          split at h
          · cases h
          · rename_i recs hlm
            split at h
            · cases h
            · rename_i ds' hle
              simp only [Option.some.injEq] at h
              subst h
              rw [rows_scalar_append, Bool.and_eq_true]
              constructor
              · cases hif : (!first && !more.isEmpty) <;> simp [hif, rows_scalar]
              · have hself := hP kvs_e (List.mem_cons_self _ _)
                have hrow : (headers.map
                    (fun hh => elemGet kvs_e hh)).all scalar_type = true := by
                  rw [List.all_eq_true]
                  intro c hc
                  obtain ⟨hh, hhm, rfl⟩ := List.mem_map.mp hc
                  exact hself.1 hh hhm
                have hrecs := list_element_more_rows_scalar kvs_e i
                  hself.2 more recs hlm
                have hrest := ih
                  (fun kvs hkm => hP kvs (List.mem_cons_of_mem _ hkm))
                  false ds' hle
                simp only [rows_scalar, List.all_cons, List.all_append,
                  Bool.and_eq_true] at hrecs hrest ⊢
                exact ⟨hrow, hrecs, hrest⟩
      | null =>
          rw [list_elements] at h <;>
            first
              | cases h
              | (intro a ha; exact Value.noConfusion ha)
      | str s =>
          rw [list_elements] at h <;>
            first
              | cases h
              | (intro a ha; exact Value.noConfusion ha)
      | int n =>
          rw [list_elements] at h <;>
            first
              | cases h
              | (intro a ha; exact Value.noConfusion ha)
      | bool b =>
          rw [list_elements] at h <;>
            first
              | cases h
              | (intro a ha; exact Value.noConfusion ha)
      | seq l =>
          rw [list_elements] at h <;>
            first
              | cases h
              | (intro a ha; exact Value.noConfusion ha)

/-- Membership in the sorted key unions of `_group_scalar_keys_from_list`. -/
theorem mem_group_from_list {kvss : List (List (String × Value))}
    {hs ms : List String}
    (h : group_scalar_keys_from_list (kvss.map Value.map) = some (hs, ms)) :
    ∀ k, (k ∈ hs ↔ ∃ kvs ∈ kvss, k ∈ (group_scalar_keys kvs).1) ∧
         (k ∈ ms ↔ ∃ kvs ∈ kvss, k ∈ (group_scalar_keys kvs).2) := by
  obtain ⟨⟨hs', ms'⟩, hu, hf⟩ :
      ∃ p, group_keys_union (kvss.map Value.map) = some p ∧
        (sortStrings p.1.dedup, sortStrings p.2.dedup) = (hs, ms) := by
    simpa [group_scalar_keys_from_list, Option.map_eq_some'] using h
  simp only [Prod.mk.injEq] at hf
  obtain ⟨h1, h2⟩ := hf
  subst h1
  subst h2
  intro k
  have hk := mem_group_keys_union kvss hs' ms' hu k
  constructor
  · rw [mem_sortStrings, List.mem_dedup]
    exact hk.1
  · rw [mem_sortStrings, List.mem_dedup]
    exact hk.2

/-- A key classified scalar has a scalar value under `current[k]`, provided
the dict has duplicate-free keys. -/
theorem dGet_scalar_of_mem_headers {kvs : List (String × Value)} {k : String}
    (hnd : (kvs.map Prod.fst).Nodup) (hk : k ∈ (group_scalar_keys kvs).1) :
    scalar_type (dGet kvs k) = true := by
  obtain ⟨v, hmem, hsc⟩ := mem_group_scalar_1_iff.mp hk
  rw [dGet, dlookup_eq_of_nodup_mem hnd hmem]
  simpa using hsc

/-- Main invariant behind C1: on `cellSafe` input, every `AddRow` cell of
the emitted stream is scalar. -/
theorem build_rows_scalar_aux :
    ∀ n : Nat, ∀ v : Value, sizeOf v < n → ∀ (title : String) (i : Nat),
      cellSafe v = true →
      ∀ r, build_table title v i = some r → rows_scalar r.1 = true := by
  intro n
  induction n with
  | zero =>
      intro v h
      omega
  | succ n ih =>
      intro v hsz title i hsafe r hr
      by_cases hf : falsy v = true
      · rw [build_table.eq_def, if_pos hf] at hr
        simp only [Option.some.injEq] at hr
        subst hr
        rfl
      · rw [build_table.eq_def, if_neg hf] at hr
        cases v with
        | null =>
            simp only [Option.some.injEq] at hr
            subst hr
            rfl
        | str s =>
            simp only [Option.some.injEq] at hr
            subst hr
            rfl
        | int m =>
            simp only [Option.some.injEq] at hr
            subst hr
            rfl
        | bool b =>
            simp only [Option.some.injEq] at hr
            subst hr
            rfl
        | map kvs =>
            rw [cellSafe, Bool.and_eq_true] at hsafe
            obtain ⟨hndb, hkvs⟩ := hsafe
            have hnd : (kvs.map Prod.fst).Nodup := of_decide_eq_true hndb
            have hrec : ∀ k v, dlookup kvs k = some v →
                ∀ r', build_table k v (i + 1) = some r' →
                  rows_scalar r'.1 = true := by
              intro k w hdl r' hbt
              have hmem := dlookup_some_mem hdl
              have hsw : sizeOf w < n := by
                have h1 := sizeOf_val_lt_of_mem_kvs hmem
                have h2 : sizeOf (Value.map kvs) = 1 + sizeOf kvs :=
                  Value.map.sizeOf_spec kvs
                omega
              exact ih w hsw k (i + 1)
                (cellSafeKvs_values hkvs (k, w) hmem) r' hbt
            have hall : ∀ k ∈ (group_scalar_keys kvs).1,
                scalar_type (dGet kvs k) = true :=
              fun k hk => dGet_scalar_of_mem_headers hnd hk
            replace hr : Option.map
                (fun ds => (Directive.newSection title i :: ds, true))
                (build_sub_table_from_dict kvs i) = some r := hr
            rw [build_sub_table_from_dict.eq_def] at hr
            cases hdm : dict_more kvs (group_scalar_keys kvs).2 i with
            | none =>
                rw [hdm] at hr
                simp at hr
            | some rest =>
                rw [hdm] at hr
                have hrest := dict_more_rows_scalar kvs i hrec _ rest hdm
                cases hh : (group_scalar_keys kvs).1 with
                | nil =>
                    rw [hh] at hr
                    simp only [Option.map_some', Option.some.injEq] at hr
                    subst hr
                    simpa [rows_scalar] using hrest
                | cons k0 t =>
                    cases t with
                    | nil =>
                        rw [hh] at hr
                        simp only [Option.map_some', Option.some.injEq] at hr
                        subst hr
                        have hk0 := hall k0 (by
                          rw [hh]
                          exact List.mem_cons_self _ _)
                        simp only [rows_scalar, List.all_cons,
                          Bool.and_eq_true] at hrest ⊢
                        exact ⟨by trivial, by simpa [scalar_type] using hk0,
                               hrest⟩
                    | cons k1 t2 =>
                        rw [hh] at hr
                        simp only [Option.map_some', Option.some.injEq] at hr
                        subst hr
                        simp only [rows_scalar, List.all_cons,
                          Bool.and_eq_true] at hrest ⊢
                        refine ⟨by trivial, by trivial, ?_, hrest⟩
                        rw [List.all_eq_true]
                        intro c hc
                        obtain ⟨k, hkm, rfl⟩ := List.mem_map.mp hc
                        have := hall k (by rw [hh]; exact hkm)
                        simpa [scalar_type] using this
        | seq items =>
            rw [cellSafe, Bool.and_eq_true] at hsafe
            obtain ⟨hshape, hlist⟩ := hsafe
            cases items with
            | nil =>
                simp only [Option.some.injEq] at hr
                subst hr
                rfl
            | cons x xs =>
                cases x with
                | map mkvs =>
                    replace hr : Option.map
                        (fun ds => (Directive.newSection title i :: ds, true))
                        (build_sub_table_from_list (Value.map mkvs :: xs) i
                          title) = some r := hr
                    rw [build_sub_table_from_list.eq_def] at hr
                    rw [seqShapeSafe] at hshape
                    rw [Bool.and_eq_true] at hshape
                    obtain ⟨hmaps, hdisj0⟩ := hshape
                    obtain ⟨kvss, hkv⟩ := all_maps_exists_kvss hmaps
                    cases hg : group_scalar_keys_from_list
                        (Value.map mkvs :: xs) with
                    | none =>
                        rw [hg] at hr
                        simp at hr
                    | some p =>
                      obtain ⟨hs, ms⟩ := p
                      rw [hg] at hr hdisj0
                      simp only [List.all_eq_true, Bool.not_eq_true'] at hdisj0
                      replace hr : Option.map
                          (fun ds => (Directive.newSection title i :: ds, true))
                          (Option.map
                            (fun ds => Directive.addHeaderRow hs :: ds)
                            (list_elements (Value.map mkvs :: xs) hs ms i
                              title true)) = some r := hr
                      have hdisj : ∀ k ∈ hs, k ∉ ms := by
                        intro k hkm hkms
                        have h2 := hdisj0 k hkm
                        have h3 : ms.contains k = true := by simpa using hkms
                        rw [h2] at h3
                        cases h3
                      cases hle : list_elements (Value.map mkvs :: xs)
                          hs ms i title true with
                      | none =>
                          rw [hle] at hr
                          simp at hr
                      | some ds =>
                        rw [hle] at hr
                        simp only [Option.map_some', Option.some.injEq] at hr
                        subst hr
                        have hgk : group_scalar_keys_from_list
                            (kvss.map Value.map) = some (hs, ms) := by
                          rw [← hkv]
                          exact hg
                        have hP : ∀ kvs_e,
                            Value.map kvs_e ∈ Value.map mkvs :: xs →
                            (∀ h ∈ hs,
                               scalar_type (elemGet kvs_e h) = true) ∧
                            (∀ k v, dlookup kvs_e k = some v →
                               ∀ r', build_table k v (i + 1) = some r' →
                                 rows_scalar r'.1 = true) := by
                          intro kvs_e hmem
                          have hsafee : cellSafe (Value.map kvs_e) = true :=
                            cellSafeList_mem hlist _ hmem
                          rw [cellSafe, Bool.and_eq_true] at hsafee
                          obtain ⟨hndeb, hkvse⟩ := hsafee
                          have hkvsse : kvs_e ∈ kvss := by
                            rw [hkv] at hmem
                            obtain ⟨kvs', hk1, hk2⟩ := List.mem_map.mp hmem
                            have : kvs' = kvs_e := by
                              injection hk2
                            rw [← this]
                            exact hk1
                          constructor
                          · intro hh hhm
                            cases hdl : dlookup kvs_e hh with
                            | none => simp [elemGet, hdl, scalar_type]
                            | some w =>
                                rw [elemGet, hdl]
                                by_cases hscw : scalar_type w = true
                                · exact hscw
                                · exfalso
                                  have hwmem := dlookup_some_mem hdl
                                  have h2 : hh ∈ (group_scalar_keys kvs_e).2 :=
                                    mem_group_scalar_2_iff.mpr
                                      ⟨w, hwmem, by simpa using hscw⟩
                                  have hhms : hh ∈ ms :=
                                    ((mem_group_from_list hgk hh).2).mpr
                                      ⟨kvs_e, hkvsse, h2⟩
                                  exact hdisj hh hhm hhms
                          · intro k w hdl r' hbt
                            have hwmem := dlookup_some_mem hdl
                            have hsw : sizeOf w < n := by
                              have h1 := sizeOf_val_lt_of_mem_kvs hwmem
                              have h2 := List.sizeOf_lt_of_mem hmem
                              have h3 : sizeOf (Value.map kvs_e) =
                                  1 + sizeOf kvs_e :=
                                Value.map.sizeOf_spec kvs_e
                              have h4 : sizeOf
                                  (Value.seq (Value.map mkvs :: xs)) =
                                  1 + sizeOf (Value.map mkvs :: xs) :=
                                Value.seq.sizeOf_spec _
                              omega
                            exact ih w hsw k (i + 1)
                              (cellSafeKvs_values hkvse (k, w) hwmem) r' hbt
                        have hds := list_elements_rows_scalar hs ms i title
                          (Value.map mkvs :: xs) hP true ds hle
                        simpa [rows_scalar] using hds
                | null =>
                    simp only [Option.some.injEq] at hr
                    subst hr
                    have hall2 : (Value.null :: xs).all
                        (fun e => scalar_type e) = true := by
                      simpa [seqShapeSafe] using hshape
                    simp only [rows_scalar, List.all_eq_true]
                    intro d hd
                    rcases List.mem_cons.mp hd with rfl | hd2
                    · rfl
                    · obtain ⟨item, hitem, rfl⟩ := List.mem_map.mp hd2
                      have hsc := List.all_eq_true.mp hall2 item hitem
                      simpa using hsc
                | str s =>
                    simp only [Option.some.injEq] at hr
                    subst hr
                    have hall2 : (Value.str s :: xs).all
                        (fun e => scalar_type e) = true := by
                      simpa [seqShapeSafe] using hshape
                    simp only [rows_scalar, List.all_eq_true]
                    intro d hd
                    rcases List.mem_cons.mp hd with rfl | hd2
                    · rfl
                    · obtain ⟨item, hitem, rfl⟩ := List.mem_map.mp hd2
                      have hsc := List.all_eq_true.mp hall2 item hitem
                      simpa using hsc
                | int m =>
                    simp only [Option.some.injEq] at hr
                    subst hr
                    have hall2 : (Value.int m :: xs).all
                        (fun e => scalar_type e) = true := by
                      simpa [seqShapeSafe] using hshape
                    simp only [rows_scalar, List.all_eq_true]
                    intro d hd
                    rcases List.mem_cons.mp hd with rfl | hd2
                    · rfl
                    · obtain ⟨item, hitem, rfl⟩ := List.mem_map.mp hd2
                      have hsc := List.all_eq_true.mp hall2 item hitem
                      simpa using hsc
                | bool b =>
                    simp only [Option.some.injEq] at hr
                    subst hr
                    have hall2 : (Value.bool b :: xs).all
                        (fun e => scalar_type e) = true := by
                      simpa [seqShapeSafe] using hshape
                    simp only [rows_scalar, List.all_eq_true]
                    intro d hd
                    rcases List.mem_cons.mp hd with rfl | hd2
                    · rfl
                    · obtain ⟨item, hitem, rfl⟩ := List.mem_map.mp hd2
                      have hsc := List.all_eq_true.mp hall2 item hitem
                      simpa using hsc
                | seq l =>
                    simp only [Option.some.injEq] at hr
                    subst hr
                    have hall2 : (Value.seq l :: xs).all
                        (fun e => scalar_type e) = true := by
                      simpa [seqShapeSafe] using hshape
                    simp only [rows_scalar, List.all_eq_true]
                    intro d hd
                    rcases List.mem_cons.mp hd with rfl | hd2
                    · rfl
                    · obtain ⟨item, hitem, rfl⟩ := List.mem_map.mp hd2
                      have hsc := List.all_eq_true.mp hall2 item hitem
                      simpa using hsc

/-- **C1 (amended)**: every cell placed in an `AddRow` directive is scalar,
provided no container can reach an inline cell: every sequence whose first
element is not a mapping holds only scalars, every sequence whose first
element is a mapping holds only mappings with no key classified scalar in
one element and container in another, and mapping keys are duplicate-free.
(The unrestricted claim is false: see `spec_c1_counterexample`.) -/
theorem spec_c1_amended (title : String) (i : Nat) (v : Value)
    (h : cellSafe v = true) :
    (build_table title v i).all (fun r => rows_scalar r.1) = true := by
  cases hb : build_table title v i with
  | none => rfl
  | some r =>
      simp only [Option.all_some]
      exact build_rows_scalar_aux (sizeOf v + 1) v (by omega) title i h r hb

/-- **C1 counterexample**: for a sequence of mappings in which the key
`"k"` is scalar-valued in one element and container-valued in another —
exactly the situation the claim covers — the second element's row places the
container `["y"]` inline as a cell, so not every `AddRow` cell is a
stringified scalar. -/
theorem spec_c1_counterexample :
    build_table "T"
      (Value.seq [Value.map [("k", Value.str "x")],
                  Value.map [("k", Value.seq [Value.str "y"])]]) 0 =
      some ([Directive.newSection "T" 0,
             Directive.addHeaderRow ["k"],
             Directive.addRow [Value.str "x"],
             Directive.newSection "k" 1,
             Directive.newSection "T" 0,
             Directive.addHeaderRow ["k"],
             Directive.addRow [Value.seq [Value.str "y"]],
             Directive.newSection "k" 1,
             Directive.addRow [Value.str "y"]], true) ∧
    Directive.addRow [Value.seq [Value.str "y"]] ∈
      [Directive.newSection "T" 0,
       Directive.addHeaderRow ["k"],
       Directive.addRow [Value.str "x"],
       Directive.newSection "k" 1,
       Directive.newSection "T" 0,
       Directive.addHeaderRow ["k"],
       Directive.addRow [Value.seq [Value.str "y"]],
       Directive.newSection "k" 1,
       Directive.addRow [Value.str "y"]] ∧
    scalar_type (Value.seq [Value.str "y"]) = false := by
  refine ⟨?_, by decide, by decide⟩
  simp [build_table, build_sub_table_from_list, list_elements,
        list_element_more, build_sub_table_from_dict, dict_more,
        group_scalar_keys_from_list, group_keys_union, group_scalar_keys,
        sortStrings, List.insertionSort, List.orderedInsert, strLeP, strLe,
        charListLe, elemGet, dGet, dlookup, falsy, scalar_type, List.dedup]

/-- Witness for the amended C1 at the spec's nested-anchoring example,
which satisfies all the amendment's shape conditions. -/
theorem spec_c1_witness :
    cellSafe
      (Value.seq
        [Value.map [("id", Value.int 1),
                    ("tags", Value.seq [Value.str "a", Value.str "b"])],
         Value.map [("id", Value.int 2),
                    ("tags", Value.seq [Value.str "c"])]]) = true ∧
    (build_table "Items"
      (Value.seq
        [Value.map [("id", Value.int 1),
                    ("tags", Value.seq [Value.str "a", Value.str "b"])],
         Value.map [("id", Value.int 2),
                    ("tags", Value.seq [Value.str "c"])]]) 0).all
      (fun r => rows_scalar r.1) = true :=
  ⟨by decide, spec_c1_amended "Items" 0 _ (by decide)⟩

/-- Ordering dict entries by key, for canonicalizing insertion order. -/
def kvLe (p q : String × Value) : Prop := strLeP p.1 q.1

instance : DecidableRel kvLe :=
  fun p q => inferInstanceAs (Decidable (strLeP p.1 q.1))

/-- Sort dict entries by key. -/
def sortKvs (l : List (String × Value)) : List (String × Value) :=
  List.insertionSort kvLe l

mutual

/-- Canonical form of a value: recursively sort every dict's entries by key.
Two Python values are structurally identical (Python `==`, which ignores dict
insertion order) exactly when their canonical forms coincide, for dicts with
duplicate-free keys. -/
def canon : Value → Value
  | Value.null => Value.null
  | Value.str s => Value.str s
  | Value.int n => Value.int n
  | Value.bool b => Value.bool b
  | Value.seq items => Value.seq (canonList items)
  | Value.map kvs => Value.map (sortKvs (canonKvs kvs))

/-- `canon` on each element of a list. -/
def canonList : List Value → List Value
  | [] => []
  | x :: xs => canon x :: canonList xs

/-- `canon` on each value of an association list. -/
def canonKvs : List (String × Value) → List (String × Value)
  | [] => []
  | (k, v) :: xs => (k, canon v) :: canonKvs xs

end

mutual

/-- Every dict in the value has duplicate-free keys (true of every value
that comes from a Python dict tree). -/
def nodupKeysV : Value → Bool
  | Value.seq items => nodupKeysVList items
  | Value.map kvs => decide ((kvs.map Prod.fst).Nodup) && nodupKeysVKvs kvs
  | _ => true

/-- `nodupKeysV` on each element of a list. -/
def nodupKeysVList : List Value → Bool
  | [] => true
  | x :: xs => nodupKeysV x && nodupKeysVList xs

/-- `nodupKeysV` on each value of an association list. -/
def nodupKeysVKvs : List (String × Value) → Bool
  | [] => true
  | p :: xs => nodupKeysV p.2 && nodupKeysVKvs xs

end

/-- Canonicalize the cells of a row directive; section and header directives
carry no `Value` and are untouched. -/
def canonDir : Directive → Directive
  | Directive.addRow cells => Directive.addRow (cells.map canon)
  | d => d

/-- Canonicalize every directive of a stream. -/
def canonStream (ds : List Directive) : List Directive := ds.map canonDir

theorem canonList_eq_map : ∀ l : List Value, canonList l = l.map canon := by
  intro l
  induction l with
  | nil => rfl
  | cons x xs ih => rw [canonList, ih, List.map_cons]

theorem canonKvs_eq_map : ∀ l : List (String × Value),
    canonKvs l = l.map (fun p => (p.1, canon p.2)) := by
  intro l
  induction l with
  | nil => rfl
  | cons p xs ih =>
      obtain ⟨k, v⟩ := p
      rw [canonKvs, ih, List.map_cons]

theorem scalar_type_canon (v : Value) : scalar_type (canon v) = scalar_type v := by
  cases v <;> rfl

theorem canonKvs_keys (kvs : List (String × Value)) :
    (canonKvs kvs).map Prod.fst = kvs.map Prod.fst := by
  induction kvs with
  | nil => rfl
  | cons p rest ih =>
      obtain ⟨k, v⟩ := p
      simp [canonKvs, ih]

theorem sortKvs_perm (l : List (String × Value)) : (sortKvs l).Perm l :=
  List.perm_insertionSort kvLe l

theorem falsy_canon (v : Value) : falsy (canon v) = falsy v := by
  cases v with
  | seq items => cases items <;> simp [canon, canonList, falsy]
  | map kvs =>
      cases kvs with
      | nil => rfl
      | cons p rest =>
          simp only [canon, falsy]
          have hp := sortKvs_perm (canonKvs (p :: rest))
          have hlen := hp.length_eq
          obtain ⟨k, v⟩ := p
          cases hs : sortKvs (canonKvs ((k, v) :: rest)) with
          | nil =>
              rw [hs] at hlen
              simp [canonKvs] at hlen
          | cons q qs => simp
  | null => rfl
  | str s => rfl
  | int n => rfl
  | bool b => rfl

theorem dlookup_canonKvs (kvs : List (String × Value)) (k : String) :
    dlookup (canonKvs kvs) k = (dlookup kvs k).map canon := by
  induction kvs with
  | nil => rfl
  | cons p rest ih =>
      obtain ⟨k', v⟩ := p
      by_cases hk : (k' == k) = true
      · simp [canonKvs, dlookup, hk]
      · simp [canonKvs, dlookup, hk, ih]

theorem dlookup_perm : ∀ {l l' : List (String × Value)}, l.Perm l' →
    (l.map Prod.fst).Nodup → ∀ k, dlookup l k = dlookup l' k := by
  intro l l' hp
  induction hp with
  | nil => intro _ k; rfl
  | cons p hp ih =>
      intro hnd k
      obtain ⟨k', v⟩ := p
      rw [List.map_cons, List.nodup_cons] at hnd
      by_cases hk : (k' == k) = true
      · simp [dlookup, hk]
      · simp [dlookup, hk, ih hnd.2 k]
  | swap p q l =>
      intro hnd k
      obtain ⟨k1, v1⟩ := q
      obtain ⟨k2, v2⟩ := p
      simp only [List.map_cons, List.nodup_cons, List.mem_cons] at hnd
      have hne : k1 ≠ k2 := fun hc => hnd.1 (Or.inl hc)
      by_cases h1 : (k1 == k) = true
      · have h2 : (k2 == k) = false := by
          have : k1 = k := by simpa using h1
          subst this
          simpa using fun hc => hne hc.symm
        simp [dlookup, h1, h2]
      · by_cases h2 : (k2 == k) = true
        · simp [dlookup, h1, h2]
        · simp [dlookup, h1, h2]
  | trans h1 h2 ih1 ih2 =>
      intro hnd k
      have hmid := ((h1.map Prod.fst).nodup_iff).mp hnd
      rw [ih1 hnd k, ih2 hmid k]

theorem canonKvs_filter_scalar_keys (kvs : List (String × Value)) :
    ((canonKvs kvs).filter (fun p => scalar_type p.2)).map Prod.fst =
    (kvs.filter (fun p => scalar_type p.2)).map Prod.fst := by
  induction kvs with
  | nil => rfl
  | cons p rest ih =>
      obtain ⟨k, v⟩ := p
      cases hsc : scalar_type v with
      | true =>
          have hsc' : scalar_type (canon v) = true := by
            rw [scalar_type_canon]
            exact hsc
          simp [canonKvs, List.filter_cons, hsc, hsc', ih]
      | false =>
          have hsc' : scalar_type (canon v) = false := by
            rw [scalar_type_canon]
            exact hsc
          simp [canonKvs, List.filter_cons, hsc, hsc', ih]

theorem canonKvs_filter_nonscalar_keys (kvs : List (String × Value)) :
    ((canonKvs kvs).filter (fun p => !scalar_type p.2)).map Prod.fst =
    (kvs.filter (fun p => !scalar_type p.2)).map Prod.fst := by
  induction kvs with
  | nil => rfl
  | cons p rest ih =>
      obtain ⟨k, v⟩ := p
      cases hsc : scalar_type v with
      | true =>
          have hsc' : scalar_type (canon v) = true := by
            rw [scalar_type_canon]
            exact hsc
          simp [canonKvs, List.filter_cons, hsc, hsc', ih]
      | false =>
          have hsc' : scalar_type (canon v) = false := by
            rw [scalar_type_canon]
            exact hsc
          simp [canonKvs, List.filter_cons, hsc, hsc', ih]

theorem group_scalar_keys_canon (kvs : List (String × Value)) :
    group_scalar_keys (sortKvs (canonKvs kvs)) = group_scalar_keys kvs := by
  unfold group_scalar_keys
  have hp1 : (((sortKvs (canonKvs kvs)).filter
      (fun p => scalar_type p.2)).map Prod.fst).Perm
      (((canonKvs kvs).filter (fun p => scalar_type p.2)).map Prod.fst) :=
    (((sortKvs_perm (canonKvs kvs))).filter _).map _
  have hp2 : (((sortKvs (canonKvs kvs)).filter
      (fun p => !scalar_type p.2)).map Prod.fst).Perm
      (((canonKvs kvs).filter (fun p => !scalar_type p.2)).map Prod.fst) :=
    (((sortKvs_perm (canonKvs kvs))).filter _).map _
  rw [Prod.mk.injEq]
  constructor
  · rw [sortStrings_eq_of_perm hp1, canonKvs_filter_scalar_keys]
  · rw [sortStrings_eq_of_perm hp2, canonKvs_filter_nonscalar_keys]

theorem dlookup_canon_sort (kvs : List (String × Value))
    (hnd : (kvs.map Prod.fst).Nodup) (k : String) :
    dlookup (sortKvs (canonKvs kvs)) k = (dlookup kvs k).map canon := by
  have hnd' : ((canonKvs kvs).map Prod.fst).Nodup := by
    rw [canonKvs_keys]
    exact hnd
  have hnds : ((sortKvs (canonKvs kvs)).map Prod.fst).Nodup :=
    (((sortKvs_perm (canonKvs kvs)).map Prod.fst).nodup_iff).mpr hnd'
  rw [dlookup_perm (sortKvs_perm (canonKvs kvs)) hnds k, dlookup_canonKvs]

theorem elemGet_canon (kvs : List (String × Value))
    (hnd : (kvs.map Prod.fst).Nodup) (k : String) :
    elemGet (sortKvs (canonKvs kvs)) k = canon (elemGet kvs k) := by
  cases hdl : dlookup kvs k with
  | none => simp [elemGet, dlookup_canon_sort kvs hnd k, hdl, canon]
  | some v => simp [elemGet, dlookup_canon_sort kvs hnd k, hdl]

theorem dGet_canon (kvs : List (String × Value))
    (hnd : (kvs.map Prod.fst).Nodup) (k : String) :
    dGet (sortKvs (canonKvs kvs)) k = canon (dGet kvs k) := by
  cases hdl : dlookup kvs k with
  | none => simp [dGet, dlookup_canon_sort kvs hnd k, hdl, canon]
  | some v => simp [dGet, dlookup_canon_sort kvs hnd k, hdl]

theorem group_keys_union_canonList (items : List Value) :
    group_keys_union (canonList items) = group_keys_union items := by
  induction items with
  | nil => rfl
  | cons x xs ih =>
      rw [canonList]
      cases x with
      | map kvs =>
          simp only [group_keys_union, canon, ih, group_scalar_keys_canon]
      | null => rfl
      | str s => rfl
      | int n => rfl
      | bool b => rfl
      | seq l => rfl

theorem group_from_list_canonList (items : List Value) :
    group_scalar_keys_from_list (canonList items) =
      group_scalar_keys_from_list items := by
  rw [group_scalar_keys_from_list, group_scalar_keys_from_list,
      group_keys_union_canonList]

theorem canonStream_append (a b : List Directive) :
    canonStream (a ++ b) = canonStream a ++ canonStream b := by
  simp [canonStream]

theorem nodupKeysVKvs_values {kvs : List (String × Value)}
    (h : nodupKeysVKvs kvs = true) : ∀ p ∈ kvs, nodupKeysV p.2 = true := by
  induction kvs with
  | nil => intro p hp; simp at hp
  | cons q rest ih =>
      intro p hp
      rw [nodupKeysVKvs, Bool.and_eq_true] at h
      rcases List.mem_cons.mp hp with rfl | hmem
      · exact h.1
      · exact ih h.2 p hmem

theorem nodupKeysVList_mem {items : List Value}
    (h : nodupKeysVList items = true) : ∀ x ∈ items, nodupKeysV x = true := by
  induction items with
  | nil => intro x hx; simp at hx
  | cons y rest ih =>
      intro x hx
      rw [nodupKeysVList, Bool.and_eq_true] at h
      rcases List.mem_cons.mp hx with rfl | hmem
      · exact h.1
      · exact ih h.2 x hmem

/-- Plain-match unfolding of the `dict_more` loop on a non-empty key
list. -/
theorem dict_more_cons (kvs : List (String × Value)) (k : String)
    (ms : List String) (i : Nat) :
    dict_more kvs (k :: ms) i =
      match dlookup kvs k with
      | none => none
      | some v =>
          match build_table k v (i + 1) with
          | none => none
          | some r =>
              match dict_more kvs ms i with
              | none => none
              | some ds => some (r.1 ++ ds) := by
  rw [dict_more]
  cases hdl : dlookup kvs k <;> rfl

/-- Plain-match unfolding of the `list_element_more` loop on a non-empty
key list. -/
theorem list_element_more_cons (kvs : List (String × Value)) (k : String)
    (ms : List String) (i : Nat) :
    list_element_more kvs (k :: ms) i =
      match dlookup kvs k with
      | none => list_element_more kvs ms i
      | some v =>
          match build_table k v (i + 1) with
          | none => none
          | some r =>
              match list_element_more kvs ms i with
              | none => none
              | some ds => some (r.1 ++ ds) := by
  rw [list_element_more]
  cases hdl : dlookup kvs k <;> rfl

theorem dict_more_canon (kvs : List (String × Value)) (i : Nat)
    (hnd : (kvs.map Prod.fst).Nodup)
    (hrec : ∀ k v, dlookup kvs k = some v →
      build_table k (canon v) (i + 1) =
        (build_table k v (i + 1)).map (fun r => (canonStream r.1, r.2))) :
    ∀ more, dict_more (sortKvs (canonKvs kvs)) more i =
      (dict_more kvs more i).map canonStream := by
  intro more
  induction more with
  | nil => simp [dict_more, canonStream]
  | cons k ms ih =>
      rw [dict_more_cons, dict_more_cons, dlookup_canon_sort kvs hnd k]
      cases hdl : dlookup kvs k with
      | none => rfl
      | some v =>
          simp only [Option.map_some']
          rw [hrec k v hdl]
          cases hbt : build_table k v (i + 1) with
          | none => rfl
          | some r =>
              simp only [Option.map_some']
              rw [ih]
              cases hdm : dict_more kvs ms i with
              | none => rfl
              | some ds =>
                  simp only [Option.map_some']
                  simp [canonStream_append]

theorem list_element_more_canon (kvs : List (String × Value)) (i : Nat)
    (hnd : (kvs.map Prod.fst).Nodup)
    (hrec : ∀ k v, dlookup kvs k = some v →
      build_table k (canon v) (i + 1) =
        (build_table k v (i + 1)).map (fun r => (canonStream r.1, r.2))) :
    ∀ more, list_element_more (sortKvs (canonKvs kvs)) more i =
      (list_element_more kvs more i).map canonStream := by
  intro more
  induction more with
  | nil => simp [list_element_more, canonStream]
  | cons k ms ih =>
      rw [list_element_more_cons, list_element_more_cons,
          dlookup_canon_sort kvs hnd k]
      cases hdl : dlookup kvs k with
      | none =>
          simp only [Option.map_none']
          exact ih
      | some v =>
          simp only [Option.map_some']
          rw [hrec k v hdl]
          cases hbt : build_table k v (i + 1) with
          | none => rfl
          | some r =>
              simp only [Option.map_some']
              rw [ih]
              cases hdm : list_element_more kvs ms i with
              | none => rfl
              | some ds =>
                  simp only [Option.map_some']
                  simp [canonStream_append]

theorem list_elements_canon (headers more : List String) (i : Nat)
    (title : String) :
    ∀ items : List Value,
      (∀ kvs_e, Value.map kvs_e ∈ items →
         (kvs_e.map Prod.fst).Nodup ∧
         (∀ k v, dlookup kvs_e k = some v →
            build_table k (canon v) (i + 1) =
              (build_table k v (i + 1)).map
                (fun r => (canonStream r.1, r.2)))) →
      ∀ first,
        list_elements (canonList items) headers more i title first =
          (list_elements items headers more i title first).map canonStream := by
  intro items
  induction items with
  | nil =>
      intro _ first
      simp [canonList, list_elements, canonStream]
  | cons x rest ih =>
      intro hP first
      rw [canonList]
      cases x with
      | map kvs_e =>
          obtain ⟨hnd, hrec⟩ := hP kvs_e (List.mem_cons_self _ _)
          simp only [canon]
          rw [list_elements, list_elements]
          rw [list_element_more_canon kvs_e i hnd hrec more]
          cases hlm : list_element_more kvs_e more i with
          | none => rfl
          | some recs =>
              simp only [Option.map_some']
              rw [ih (fun kvs hkm => hP kvs (List.mem_cons_of_mem _ hkm))
                  false]
              cases hle : list_elements rest headers more i title false with
              | none => rfl
              | some ds =>
                  simp only [Option.map_some', Option.some.injEq]
                  have hrow : headers.map
                      (fun h => elemGet (sortKvs (canonKvs kvs_e)) h) =
                      (headers.map (fun h => elemGet kvs_e h)).map canon := by
                    rw [List.map_map]
                    exact List.map_congr_left
                      (fun h _ => elemGet_canon kvs_e hnd h)
                  cases hif : (!first && !more.isEmpty) <;>
                    simp [hif, hrow, canonStream, canonDir, canonStream_append]
      | null =>
          rw [list_elements, list_elements] <;>
            first
              | rfl
              | (intro a ha; simp [canon] at ha)
              | (intro a ha; exact Value.noConfusion ha)
      | str s =>
          rw [list_elements, list_elements] <;>
            first
              | rfl
              | (intro a ha; simp [canon] at ha)
              | (intro a ha; exact Value.noConfusion ha)
      | int n =>
          rw [list_elements, list_elements] <;>
            first
              | rfl
              | (intro a ha; simp [canon] at ha)
              | (intro a ha; exact Value.noConfusion ha)
      | bool b =>
          rw [list_elements, list_elements] <;>
            first
              | rfl
              | (intro a ha; simp [canon] at ha)
              | (intro a ha; exact Value.noConfusion ha)
      | seq l =>
          rw [list_elements, list_elements] <;>
            first
              | rfl
              | (intro a ha; simp [canon] at ha)
              | (intro a ha; exact Value.noConfusion ha)

theorem map_canon_addRow (l : List Value) :
    (l.map canon).map (fun item => Directive.addRow [item]) =
      (l.map (fun item => Directive.addRow [item])).map canonDir := by
  rw [List.map_map, List.map_map]
  exact List.map_congr_left (fun a _ => rfl)

/-- Canonicalizing the input canonicalizes the output: building the table
of `canon v` gives exactly the canonicalized directive stream of building
`v`, for any value whose dicts have duplicate-free keys.  In particular all
section titles, indent levels, header rows and scalar cells are unchanged —
only the insertion order inside container values placed as inline cells is
normalized. -/
theorem build_canon_aux :
    ∀ n : Nat, ∀ v : Value, sizeOf v < n → nodupKeysV v = true →
      ∀ (title : String) (i : Nat),
        build_table title (canon v) i =
          (build_table title v i).map (fun r => (canonStream r.1, r.2)) := by
  intro n
  induction n with
  | zero =>
      intro v h
      omega
  | succ n ih =>
      intro v hsz hnod title i
      by_cases hf : falsy v = true
      · have hf' : falsy (canon v) = true := by
          rw [falsy_canon]
          exact hf
        rw [build_table.eq_def, if_pos hf', build_table.eq_def, if_pos hf]
        rfl
      · have hf' : ¬ falsy (canon v) = true := by
          rw [falsy_canon]
          exact hf
        rw [build_table.eq_def, if_neg hf', build_table.eq_def, if_neg hf]
        cases v with
        | null => rfl
        | str s => rfl
        | int m => rfl
        | bool b => rfl
        | map kvs =>
            rw [nodupKeysV, Bool.and_eq_true] at hnod
            obtain ⟨hndb, hkvs⟩ := hnod
            have hnd : (kvs.map Prod.fst).Nodup := of_decide_eq_true hndb
            have hrec : ∀ k w, dlookup kvs k = some w →
                build_table k (canon w) (i + 1) =
                  (build_table k w (i + 1)).map
                    (fun r => (canonStream r.1, r.2)) := by
              intro k w hdl
              have hmem := dlookup_some_mem hdl
              have hsw : sizeOf w < n := by
                have h1 := sizeOf_val_lt_of_mem_kvs hmem
                have h2 : sizeOf (Value.map kvs) = 1 + sizeOf kvs :=
                  Value.map.sizeOf_spec kvs
                omega
              exact ih w hsw (nodupKeysVKvs_values hkvs (k, w) hmem) k (i + 1)
            simp only [canon]
            rw [build_sub_table_from_dict.eq_def,
                build_sub_table_from_dict.eq_def, group_scalar_keys_canon,
                dict_more_canon kvs i hnd hrec]
            cases hdm : dict_more kvs (group_scalar_keys kvs).2 i with
            | none => rfl
            | some rest =>
                simp only [Option.map_some']
                cases hh : (group_scalar_keys kvs).1 with
                | nil => simp [canonStream, canonDir]
                | cons k0 t =>
                    cases t with
                    | nil =>
                        simp [canonStream, canonDir, canon,
                              dGet_canon kvs hnd]
                    | cons k1 t2 =>
                        have hrow : (k0 :: k1 :: t2).map
                            (fun k => dGet (sortKvs (canonKvs kvs)) k) =
                            ((k0 :: k1 :: t2).map
                              (fun k => dGet kvs k)).map canon := by
                          rw [List.map_map]
                          exact List.map_congr_left
                            (fun k _ => dGet_canon kvs hnd k)
                        simp [canonStream, canonDir, hrow]
        | seq items =>
            rw [nodupKeysV] at hnod
            cases items with
            | nil => rfl
            | cons x xs =>
                cases x with
                | map mkvs =>
                    have hP : ∀ kvs_e,
                        Value.map kvs_e ∈ Value.map mkvs :: xs →
                        (kvs_e.map Prod.fst).Nodup ∧
                        (∀ k w, dlookup kvs_e k = some w →
                           build_table k (canon w) (i + 1) =
                             (build_table k w (i + 1)).map
                               (fun r => (canonStream r.1, r.2))) := by
                      intro kvs_e hmem
                      have hne := nodupKeysVList_mem hnod _ hmem
                      rw [nodupKeysV, Bool.and_eq_true] at hne
                      obtain ⟨hndeb, hkvse⟩ := hne
                      refine ⟨of_decide_eq_true hndeb, ?_⟩
                      intro k w hdl
                      have hwmem := dlookup_some_mem hdl
                      have hsw : sizeOf w < n := by
                        have h1 := sizeOf_val_lt_of_mem_kvs hwmem
                        have h2 := List.sizeOf_lt_of_mem hmem
                        have h3 : sizeOf (Value.map kvs_e) =
                            1 + sizeOf kvs_e := Value.map.sizeOf_spec kvs_e
                        have h4 : sizeOf (Value.seq (Value.map mkvs :: xs)) =
                            1 + sizeOf (Value.map mkvs :: xs) :=
                          Value.seq.sizeOf_spec _
                        omega
                      exact ih w hsw
                        (nodupKeysVKvs_values hkvse (k, w) hwmem) k (i + 1)
                    have hcl : Value.map (sortKvs (canonKvs mkvs)) ::
                        canonList xs = canonList (Value.map mkvs :: xs) := by
                      rw [canonList]
                      rfl
                    simp only [canon, canonList]
                    rw [build_sub_table_from_list.eq_def,
                        build_sub_table_from_list.eq_def, hcl,
                        group_from_list_canonList]
                    cases hg : group_scalar_keys_from_list
                        (Value.map mkvs :: xs) with
                    | none => rfl
                    | some p =>
                        obtain ⟨hs, ms⟩ := p
                        simp only [list_elements_canon hs ms i title
                          (Value.map mkvs :: xs) hP true]
                        cases hle : list_elements (Value.map mkvs :: xs)
                            hs ms i title true with
                        | none => rfl
                        | some ds =>
                            simp [canonStream, canonDir]
                | null =>
                    simp only [canon, canonList, canonList_eq_map]
                    simp [canonStream, canonDir, map_canon_addRow, canon,
                          canonList_eq_map]
                | str s =>
                    simp only [canon, canonList, canonList_eq_map]
                    simp [canonStream, canonDir, map_canon_addRow, canon,
                          canonList_eq_map]
                | int m =>
                    simp only [canon, canonList, canonList_eq_map]
                    simp [canonStream, canonDir, map_canon_addRow, canon,
                          canonList_eq_map]
                | bool b =>
                    simp only [canon, canonList, canonList_eq_map]
                    simp [canonStream, canonDir, map_canon_addRow, canon,
                          canonList_eq_map]
                | seq l =>
                    simp only [canon, canonList, canonList_eq_map]
                    simp [canonStream, canonDir, map_canon_addRow, canon,
                          canonList_eq_map]

/-- **C8 (amended)**: two `build` calls on structurally identical values
(equal canonical forms — Python `==`, which ignores dict insertion order —
with duplicate-free keys) produce directive streams that are identical up to
canonicalization of the values held in inline cells: all section titles,
indent levels, header rows, booleans, and scalar cells coincide, and column
and sub-section order depend only on sorted key order.  Byte-identical
streams fail only where a container value is placed inline as a cell and
retains its own insertion order (see `spec_c8_counterexample`). -/
theorem spec_c8_amended (title : String) (i : Nat) (v w : Value)
    (hv : nodupKeysV v = true) (hw : nodupKeysV w = true)
    (hc : canon v = canon w) :
    (build_table title v i).map (fun r => (canonStream r.1, r.2)) =
      (build_table title w i).map (fun r => (canonStream r.1, r.2)) := by
  rw [← build_canon_aux (sizeOf v + 1) v (by omega) hv title i,
      ← build_canon_aux (sizeOf w + 1) w (by omega) hw title i, hc]

/-- **C8 counterexample**: two structurally identical inputs (equal up to
the insertion order of an inner dict, i.e. Python `==`) whose directive
streams differ, because the inner dict is placed inline as a cell and keeps
its insertion order. -/
theorem spec_c8_counterexample :
    canon (Value.seq [Value.seq
        [Value.map [("a", Value.int 1), ("b", Value.int 2)]]]) =
      canon (Value.seq [Value.seq
        [Value.map [("b", Value.int 2), ("a", Value.int 1)]]]) ∧
    nodupKeysV (Value.seq [Value.seq
        [Value.map [("a", Value.int 1), ("b", Value.int 2)]]]) = true ∧
    nodupKeysV (Value.seq [Value.seq
        [Value.map [("b", Value.int 2), ("a", Value.int 1)]]]) = true ∧
    build_table "T" (Value.seq [Value.seq
        [Value.map [("a", Value.int 1), ("b", Value.int 2)]]]) 0 ≠
      build_table "T" (Value.seq [Value.seq
        [Value.map [("b", Value.int 2), ("a", Value.int 1)]]]) 0 := by
  refine ⟨by decide, by decide, by decide, ?_⟩
  have hA : build_table "T" (Value.seq [Value.seq
      [Value.map [("a", Value.int 1), ("b", Value.int 2)]]]) 0 =
      some ([Directive.newSection "T" 0,
             Directive.addRow [Value.seq
               [Value.map [("a", Value.int 1), ("b", Value.int 2)]]]],
            true) := by
    simp [build_table, falsy]
  have hB : build_table "T" (Value.seq [Value.seq
      [Value.map [("b", Value.int 2), ("a", Value.int 1)]]]) 0 =
      some ([Directive.newSection "T" 0,
             Directive.addRow [Value.seq
               [Value.map [("b", Value.int 2), ("a", Value.int 1)]]]],
            true) := by
    simp [build_table, falsy]
  rw [hA, hB]
  decide

/-- Witness for the amended C8 at a dict supplied in two insertion orders:
the canonicalized streams coincide. -/
theorem spec_c8_witness :
    (build_table "T"
        (Value.map [("b", Value.int 2), ("a", Value.int 1)]) 0).map
        (fun r => (canonStream r.1, r.2)) =
      (build_table "T"
        (Value.map [("a", Value.int 1), ("b", Value.int 2)]) 0).map
        (fun r => (canonStream r.1, r.2)) :=
  spec_c8_amended "T" 0 _ _ (by decide) (by decide) (by decide)
